import Mathlib

/-!
Verification development for the `Markdown_Spliter` package: a strategy-based
markdown outline extractor for academic papers (thesis / conference / journal
genres).  The definitions below are a shallow embedding of the Python source:

  * `Markdown_Spliter/strategies/base.py`        — `ParsingStrategy.detect`,
    `_match_keyword_level`, `_generic_parse`
  * `Markdown_Spliter/strategies/journal_paper.py`, `conference_paper.py`,
    `thesis_strategy.py`                          — the staged parsers and tables
  * `Markdown_Spliter/strategies/factory.py`      — threshold / auto-detection
  * `Markdown_Spliter/markdown_parser.py`         — `_find_nodes`,
    `_node_to_markdown`, `get_section_content`

Python's `re` module is embedded as a small executable regular-expression
engine (`RE` / `matchRE` / `reSearch`) covering exactly the constructs that
appear in the repository's pattern tables: literals, character classes,
`*` / `+` on classes, alternation, `\b`, and the `^` / `$` anchors (with and
without MULTILINE).  Matching is complete backtracking search, so a pattern
matches iff some decomposition succeeds, mirroring `re.search`.

Machine floats in the detection scorer are modelled as rationals (`ℚ`); the
claims checked about the scorer (range, exclusion short-circuit, structure of
the formula) are about the shape of the computation, not float rounding.
-/

namespace MarkdownSpliter

/-! ### A tiny regular-expression engine (shallow embedding of `re`)

A match position is a pair `(rev, rest)`: `rev` is the already-consumed prefix
in reverse order (needed for the zero-width `\b` and `^` look-behinds) and
`rest` is the remaining input.  `matchRE` returns the list of all positions in
which the expression can stop matching; a regex matches at a position iff that
list is non-empty. -/

/-- Regular-expression syntax actually used by the repository's patterns. -/
inductive RE where
  /-- a literal character sequence -/
  | lit : List Char → RE
  /-- a single character from a class (e.g. `[A-Z]`, `\d`, `\s`, `.`) -/
  | cl : (Char → Bool) → RE
  /-- zero or more characters from a class (e.g. `\s*`, `.*`) -/
  | star : (Char → Bool) → RE
  /-- one or more characters from a class (e.g. `\d+`, `[IVX]+`) -/
  | pls : (Char → Bool) → RE
  /-- concatenation -/
  | seq : RE → RE → RE
  /-- alternation (`|`) -/
  | alt : RE → RE → RE
  /-- the word boundary assertion `\b` -/
  | bnd : RE
  /-- The `^` under `re.MULTILINE`: start of input or right after a newline -/
  | bol : RE
  /-- The `$` under `re.MULTILINE`: end of input or right before a newline -/
  | eol : RE
  /-- The `^` without MULTILINE: start of the input -/
  | bos : RE
  /-- The `$` without MULTILINE on newline-free input: end of the input -/
  | eos : RE

/-- A match position: consumed prefix in reverse, and the remaining input. -/
abbrev RPos := List Char × List Char

/-- Python `\w` for the characters occurring in this repository's documents:
ASCII alphanumerics, underscore, and CJK unified ideographs. -/
def pyWordChar (c : Char) : Bool :=
  c.isAlphanum || c == '_' || (0x4E00 ≤ c.toNat && c.toNat ≤ 0x9FFF)

/-- Consume a single character of class `p`. -/
def stepClass (p : Char → Bool) : RPos → List RPos
  | (_, []) => []
  | (rev, c :: rest) => if p c then [(c :: rev, rest)] else []

/-- All positions reachable by consuming zero or more characters of class `p`
(the maximal run, with every intermediate stop kept for backtracking). -/
def starRun (p : Char → Bool) (rev : List Char) : List Char → List RPos
  | [] => [(rev, [])]
  | c :: rest =>
      (rev, c :: rest) :: (if p c then starRun p (c :: rev) rest else [])

/-- All stop positions of a match of `r` starting at the given position. -/
def matchRE : RE → RPos → List RPos
  | .lit s, (rev, rest) =>
      if s.isPrefixOf rest then [(s.reverse ++ rev, rest.drop s.length)] else []
  | .cl p, pos => stepClass p pos
  | .star p, pos => starRun p pos.1 pos.2
  | .pls p, pos => (stepClass p pos).flatMap (fun q => starRun p q.1 q.2)
  | .seq a b, pos => (matchRE a pos).flatMap (matchRE b)
  | .alt a b, pos => matchRE a pos ++ matchRE b pos
  | .bnd, (rev, rest) =>
      let wl := match rev with | [] => false | c :: _ => pyWordChar c
      let wr := match rest with | [] => false | c :: _ => pyWordChar c
      if wl != wr then [(rev, rest)] else []
  | .bol, (rev, rest) =>
      (match rev with
       | [] => [(rev, rest)]
       | c :: _ => if c == '\n' then [(rev, rest)] else [])
  | .eol, (rev, rest) =>
      (match rest with
       | [] => [(rev, rest)]
       | c :: _ => if c == '\n' then [(rev, rest)] else [])
  | .bos, (rev, rest) => (match rev with | [] => [(rev, rest)] | _ :: _ => [])
  | .eos, (rev, rest) => (match rest with | [] => [(rev, rest)] | _ :: _ => [])

/-- Does `r` match starting exactly at the position `(rev, rest)`? -/
def matchesAt (r : RE) (pos : RPos) : Bool :=
  !(matchRE r pos).isEmpty

/-- Index of the leftmost position at which `r` matches, like
`re.search(r, s).start()`; `none` when there is no match. -/
def reSearchPosAux (r : RE) (rev rest : List Char) (i : Nat) : Option Nat :=
  if matchesAt r (rev, rest) then some i
  else
    match rest with
    | [] => none
    | c :: rest' => reSearchPosAux r (c :: rev) rest' (i + 1)

/-- The `re.search(r, s)` as a start offset (`None` ↦ `none`). -/
def reSearchPos (r : RE) (s : String) : Option Nat :=
  reSearchPosAux r [] s.toList 0

/-- Truth value of `re.search(r, s)`. -/
def reSearch (r : RE) (s : String) : Bool :=
  (reSearchPos r s).isSome

/-- Truth value of `re.match(r, s)` (anchored at the start of `s`). -/
def reMatchStart (r : RE) (s : String) : Bool :=
  matchesAt r ([], s.toList)

/-! ### String helpers mirroring the Python `str` methods used -/

/-- Python `s.strip(chars)`: remove characters satisfying `p` from both ends. -/
def stripCharsBool (p : Char → Bool) (s : String) : String :=
  (((s.toList.dropWhile p).reverse.dropWhile p).reverse).asString

/-- Python `s.strip()` (the inputs contain only ASCII whitespace). -/
def pyStrip (s : String) : String :=
  stripCharsBool Char.isWhitespace s

/-- Python `s.startswith(pre)`. -/
def pyStartsWith (s pre : String) : Bool :=
  pre.toList.isPrefixOf s.toList

/-- Python `s.lower()` (the patterns it feeds are ASCII). -/
def pyToLower (s : String) : String :=
  (s.toList.map Char.toLower).asString

/-- Python `line.strip("# ").strip()` applied to heading lines when a node
title is built (`title.strip("# ").strip()` in every `add_node`). -/
def stripTitle (s : String) : String :=
  pyStrip (stripCharsBool (fun c => c == '#' || c == ' ') s)

/-- Python `len(line) - len(line.lstrip('#'))`: the number of leading `#`. -/
def leadingHashes (s : String) : Nat :=
  (s.toList.takeWhile (fun c => c == '#')).length

/-- Python `sub in s` (substring containment). -/
def containsSub (sub s : String) : Bool :=
  s.toList.tails.any (fun t => sub.toList.isPrefixOf t)

/-! ### The node data model and the stack-based tree builder

Python builds the tree imperatively: `add_node` creates a dict, attaches it to
the parent's `children` list (or to the root list `tree`) immediately, pushes
it on `node_stack`, and the dict keeps being mutated (content/children) while
it is on the stack.  The shallow embedding replaces the shared mutable dicts
with a stack of `Frame`s.  Each frame carries the fields of the still-open
node; attachment of a creation-time root node is recorded by reserving a slot
(`rootIdx`) in the root list at creation, which is filled in when the frame is
closed (popped), at which point the node can no longer change.  A frame with
`rootIdx = none` was attached to its parent's children at creation (Python's
`node_stack[-1]["children"].append(node)`); the completed node is appended to
the frame directly below when the frame closes.  Since only the top frame's
content/children ever change and siblings close in creation order, the final
tree is the one the Python code returns. -/

/-- A parse-tree node (`{"level": ..., "description": ..., "title": ...,
"line": ..., "content": "", "children": []}` in every `add_node`). -/
structure Node where
  level : Int
  description : String
  title : String
  line : Nat
  content : String
  children : List Node

/-- A still-open node on `node_stack`. `rootIdx = some i` means the node was
appended to the root list (slot `i`) at creation; `none` means it was appended
to its parent's children. -/
structure Frame where
  level : Int
  description : String
  title : String
  line : Nat
  content : String
  children : List Node
  rootIdx : Option Nat

/-- The completed node that a closed frame denotes. -/
def Frame.toNode (f : Frame) : Node :=
  ⟨f.level, f.description, f.title, f.line, f.content, f.children⟩

/-- Tree-builder state: root slots (`tree` in the source, with `none` for the
slots of still-open root nodes) and the open-node stack (head = `stack[-1]`). -/
structure PState where
  tree : List (Option Node)
  stack : List Frame

/-- The empty state at the top of each `parse` implementation. -/
def PState.init : PState := ⟨[], []⟩

/-- Pop frames `while node_stack and node_stack[-1]["level"] >= level`
(`add_node` in `base.py:173`, `journal_paper.py:261`, `thesis_strategy.py:220`,
`conference_paper.py:269`).  Closing a popped frame materialises the node:
into its reserved root slot, or onto the children of the frame below (a
`pend`ing node reaching the stack bottom goes to the roots; that case is
unreachable because a frame without a root slot has its parent below it).

The recursion carries the at-most-one node closed from the frame above as
`pend`, to be absorbed into the children of the next frame reached (closing a
frame in Python appends its dict to the children of the frame below it). -/
def popGEAux (lvl : Int) (tree : List (Option Node)) (pend : List Node) :
    List Frame → List (Option Node) × List Frame
  | [] => (tree ++ pend.map some, [])
  | f :: rest =>
      let f' := { f with children := f.children ++ pend }
      if lvl ≤ f'.level then
        match f'.rootIdx with
        | some idx => popGEAux lvl (tree.set idx (some f'.toNode)) [] rest
        | none => popGEAux lvl tree [f'.toNode] rest
      else (tree, f' :: rest)

/-- The `while node_stack and node_stack[-1]["level"] >= level` pop loop. -/
def popGE (lvl : Int) (tree : List (Option Node)) (stack : List Frame) :
    List (Option Node) × List Frame :=
  popGEAux lvl tree [] stack

/-- The `add_node(level, description, title, line_num)`: pop non-ancestors, then
attach to the new stack top when the stack is non-empty and `level > 0`,
otherwise append (a slot) to the root list; finally push the new node. -/
def addNode (lvl : Int) (descr title : String) (lineNum : Nat) (s : PState) : PState :=
  let ts := popGE lvl s.tree s.stack
  if !ts.2.isEmpty && decide (0 < lvl) then
    ⟨ts.1, ⟨lvl, descr, stripTitle title, lineNum, "", [], none⟩ :: ts.2⟩
  else
    ⟨ts.1 ++ [none], ⟨lvl, descr, stripTitle title, lineNum, "", [], some ts.1.length⟩ :: ts.2⟩

/-- The `add_content(line)`: append `line.strip() + "\n"` to the content of the
stack top; drop the line when the stack is empty. -/
def addContent (line : String) (s : PState) : PState :=
  match s.stack with
  | [] => s
  | f :: rest => ⟨s.tree, { f with content := f.content ++ pyStrip line ++ "\n" } :: rest⟩

/-- Close every remaining open frame at the end of a parse (in Python the
nodes were already attached; this materialises their final field values). -/
def closeFramesAux (tree : List (Option Node)) (pend : List Node) :
    List Frame → List (Option Node)
  | [] => tree ++ pend.map some
  | f :: rest =>
      let f' := { f with children := f.children ++ pend }
      match f'.rootIdx with
      | some idx => closeFramesAux (tree.set idx (some f'.toNode)) [] rest
      | none => closeFramesAux tree [f'.toNode] rest

/-- Close every remaining open frame at the end of a parse. -/
def closeFrames (tree : List (Option Node)) (stack : List Frame) : List (Option Node) :=
  closeFramesAux tree [] stack

/-- The root node list a finished parse returns. -/
def PState.finalize (s : PState) : List Node :=
  (closeFrames s.tree s.stack).reduceOption

/-! ### Metadata (a Python `dict[str, str]` with insertion order) -/

/-- Document metadata, as an insertion-ordered association list. -/
abbrev Metadata := List (String × String)

/-- Python `key in metadata`. -/
def mdContains (k : String) (m : Metadata) : Bool :=
  m.any (fun p => p.1 == k)

/-- Python `metadata[key] = v` (overwrite in place, or append a new key). -/
def mdSet (k v : String) : Metadata → Metadata
  | [] => [(k, v)]
  | p :: rest => if p.1 == k then (k, v) :: rest else p :: mdSet k v rest

/-- Python `metadata[key] += s`.  Every call site first guarantees the key is
present, so the missing-key case (a `KeyError` in Python) is unreachable; the
embedding makes it total by creating the key. -/
def mdAppend (k s : String) : Metadata → Metadata
  | [] => [(k, s)]
  | p :: rest => if p.1 == k then (p.1, p.2 ++ s) :: rest else p :: mdAppend k s rest

/-! ### Keyword tables and the classifier (`_match_keyword_level`) -/

/-- One entry of a `_define_keywords_config()` table. -/
structure KeywordConfig where
  keyword : RE
  description : String
  level : Int

/-- The `ParsingStrategy._match_keyword_level` (`base.py:130-143`): first entry
whose pattern matches anywhere in the text wins; no match gives `None`. -/
def matchKeywordLevel (cfg : List KeywordConfig) (text : String) : Option (Int × String) :=
  match cfg with
  | [] => none
  | c :: rest =>
      if reSearch c.keyword text then some (c.level, c.description)
      else matchKeywordLevel rest text

/-! ### The concrete pattern tables (regex data from the three strategies) -/

/-- A literal regex fragment. -/
def rlit (s : String) : RE := .lit s.toList

/-- Concatenation of a fragment list. -/
def reCat : List RE → RE
  | [] => .lit []
  | [r] => r
  | r :: rest => .seq r (reCat rest)

/-- Alternation of literal strings (a Python group `(a|b|c)`). -/
def rAlts : List String → RE
  | [] => .lit []
  | [s] => rlit s
  | s :: rest => .alt (rlit s) (rAlts rest)

/-- The class `[A-Z]`. -/
def upperAZ (c : Char) : Bool := 'A' ≤ c && c ≤ 'Z'

/-- The class `[IVX]`. -/
def ivxChar (c : Char) : Bool := c == 'I' || c == 'V' || c == 'X'

/-- Python `\s`. -/
def wsChar (c : Char) : Bool := c.isWhitespace

/-- Python `\d`. -/
def digitChar (c : Char) : Bool := c.isDigit

/-- Python `.` (the documents are processed line-wise, without newlines). -/
def anyChar (_ : Char) : Bool := true

/-- The `JournalPaperStrategy._define_keywords_config` (`journal_paper.py:25-100`). -/
def journalKeywords : List KeywordConfig := [
  ⟨reCat [rlit "I.", .pls wsChar, rlit "INTRODUCTION"], "introduction", 1⟩,
  ⟨reCat [rAlts ["II", "III"], rlit ".", .pls wsChar, rAlts ["RELATED WORK", "BACKGROUND"]],
    "related_work", 1⟩,
  ⟨reCat [rAlts ["III", "IV", "V"], rlit ".", .pls wsChar,
      rAlts ["METHOD", "METHODOLOGY", "PROPOSED"]], "methodology", 1⟩,
  ⟨reCat [rAlts ["IV", "V", "VI"], rlit ".", .pls wsChar, rAlts ["RESULT", "EXPERIMENT"]],
    "results", 1⟩,
  ⟨reCat [rAlts ["V", "VI", "VII"], rlit ".", .pls wsChar, rlit "DISCUSSION"], "discussion", 1⟩,
  ⟨reCat [rAlts ["VI", "VII", "VIII", "IX", "X"], rlit ".", .pls wsChar, rlit "CONCLUSION"],
    "conclusion", 1⟩,
  ⟨rlit "Abstract", "abstract", 1⟩,
  ⟨reCat [rlit "Index Terms", .cl (fun c => c == '—' || c == '-')], "index_terms", -1⟩,
  ⟨reCat [.cl upperAZ, rlit ".", .pls wsChar, .cl upperAZ], "subsection", 2⟩,
  ⟨rAlts ["REFERENCES", "References"], "references", 1⟩,
  ⟨rAlts ["ACKNOWLEDGMENT", "ACKNOWLEDGEMENT"], "acknowledgment", 1⟩,
  ⟨reCat [.pls ivxChar, rlit ".", .pls wsChar, .cl upperAZ], "section", 1⟩]

/-- The `ThesisParsingStrategy._define_keywords_config` (`thesis_strategy.py:22-97`). -/
def thesisKeywords : List KeywordConfig := [
  ⟨reCat [rlit "第", .star anyChar, rlit "章"], "chapter", 1⟩,
  ⟨reCat [.bnd, .pls digitChar, rlit ".", .pls digitChar, .bnd], "section", 2⟩,
  ⟨reCat [.bnd, .pls digitChar, rlit ".", .pls digitChar, rlit ".", .pls digitChar, .bnd],
    "clause", 3⟩,
  ⟨reCat [rlit "（", .pls digitChar, rlit "）"], "item", 4⟩,
  ⟨reCat [rlit "摘", .star wsChar, rlit "要"], "abstract_ch", 1⟩,
  ⟨rlit "Abstract", "abstract_en", 1⟩,
  ⟨rlit "作者介绍", "author_introduction", -1⟩,
  ⟨reCat [rlit "目", .star wsChar, rlit "录"], "table_of_contents", 1⟩,
  ⟨reCat [rlit "参", .star wsChar, rlit "考", .star wsChar, rlit "文", .star wsChar, rlit "献"],
    "references", 1⟩,
  ⟨reCat [rlit "图", .star wsChar, rlit "清", .star wsChar, rlit "单"], "list_of_figures", 1⟩,
  ⟨reCat [rlit "表", .star wsChar, rlit "清", .star wsChar, rlit "单"], "list_of_tables", 1⟩,
  ⟨rlit "取得的研究成果", "research_results", -1⟩]

/-- The `ConferencePaperStrategy._define_keywords_config` (`conference_paper.py:24-87`). -/
def conferenceKeywords : List KeywordConfig := [
  ⟨rlit "Abstract", "abstract", 1⟩,
  ⟨rlit "Introduction", "introduction", 1⟩,
  ⟨rAlts ["Related Work", "Background", "Literature Review"], "related_work", 1⟩,
  ⟨rAlts ["Method", "Methodology", "Approach", "Proposed Method", "Our Approach"],
    "methodology", 1⟩,
  ⟨rAlts ["Results", "Experiments", "Experimental Results", "Evaluation"], "results", 1⟩,
  ⟨rlit "Discussion", "discussion", 1⟩,
  ⟨rAlts ["Conclusion", "Conclusions", "Concluding Remarks"], "conclusion", 1⟩,
  ⟨rlit "References", "references", 1⟩,
  ⟨rAlts ["Acknowledgment", "Acknowledgments", "Acknowledgement", "Acknowledgements"],
    "acknowledgment", 1⟩,
  ⟨rAlts ["Appendix", "Appendices"], "appendix", 1⟩]

/-- The `r"博\s*士\s*学\s*位\s*论\s*文"` (`thesis_strategy.py:239`; `re.IGNORECASE`
is irrelevant for these characters). -/
def thesisMarkerRE : RE :=
  reCat [rlit "博", .star wsChar, rlit "士", .star wsChar, rlit "学", .star wsChar,
    rlit "位", .star wsChar, rlit "论", .star wsChar, rlit "文"]

/-- The `r"^\s*参\s*考\s*文\s*献\s*$"` (`thesis_strategy.py:272`), anchored on a
single newline-free line. -/
def refsLineRE : RE :=
  reCat [.bos, .star wsChar, rlit "参", .star wsChar, rlit "考", .star wsChar, rlit "文",
    .star wsChar, rlit "献", .star wsChar, .eos]

/-- The `r"^# [IVX]+\."` used with `re.match` (`journal_paper.py:294`); the anchor
is supplied by `reMatchStart`. -/
def journalRomanHeadRE : RE :=
  reCat [rlit "# ", .pls ivxChar, rlit "."]

/-! ### `ParsingStrategy._generic_parse` (`base.py:145-201`) -/

/-- Processing of one line of `_generic_parse` (`base.py:189-199`). -/
def genericLine (cfg : List KeywordConfig) (i : Nat) (rawLine : String) (s : PState) : PState :=
  let line := pyStrip rawLine
  if pyStartsWith line "#" then
    match matchKeywordLevel cfg line with
    | some ld => addNode ld.1 ld.2 line i s
    | none => addContent line s
  else addContent line s

/-- The `for i, line in enumerate(lines)` loop of `_generic_parse`. -/
def genericLoop (cfg : List KeywordConfig) : List (Nat × String) → PState → PState
  | [], s => s
  | il :: rest, s => genericLoop cfg rest (genericLine cfg il.1 il.2 s)

/-- The `ParsingStrategy._generic_parse(lines)`: empty metadata plus the tree. -/
def genericParse (cfg : List KeywordConfig) (lines : List String) : Metadata × List Node :=
  ([], (genericLoop cfg lines.enum PState.init).finalize)

/-! ### `JournalPaperStrategy.parse` (`journal_paper.py:225-329`) -/

/-- Loop state of the staged journal/conference parsers. -/
structure JState where
  metadata : Metadata
  ps : PState
  stage : Nat

/-- The journal/conference `add_content` closure (`journal_paper.py:273-278`,
`conference_paper.py:281-286`): content goes to the stack top; with an empty
stack, at stage 2, author front matter accumulates instead. -/
def jAddContent (stage : Nat) (line : String) (md : Metadata) (ps : PState) :
    Metadata × PState :=
  if !ps.stack.isEmpty then (md, addContent line ps)
  else if stage == 2 && mdContains "authors" md then
    (mdAppend "authors" (pyStrip line ++ "\n") md, ps)
  else (md, ps)

/-- One iteration of the `while i < len(lines)` loop of
`JournalPaperStrategy.parse`.  The `continue` after `stage = 2`
(`journal_paper.py:294-296`) re-runs the same line with the stage-0/1 chain
inert, which is exactly fall-through into the block below, so it is flattened
here. -/
def journalLine (i : Nat) (rawLine : String) (s : JState) : JState :=
  let line := pyStrip rawLine
  let s1 : JState :=
    if s.stage == 0 then
      if pyStartsWith line "# " then
        { s with metadata := mdSet "authors" "" (mdSet "title" (stripTitle line) s.metadata),
                 stage := 1 }
      else s
    else if s.stage == 1 then
      if pyStartsWith line "# Abstract" || reMatchStart journalRomanHeadRE line then
        { s with stage := 2 }
      else { s with metadata := mdAppend "authors" (line ++ "\n") s.metadata }
    else s
  if decide (1 ≤ s1.stage) && pyStartsWith line "#" then
    match matchKeywordLevel journalKeywords line with
    | some ld =>
        if ld.2 == "abstract" then { s1 with stage := 3, ps := addNode 1 "abstract" line i s1.ps }
        else { s1 with stage := 3, ps := addNode ld.1 ld.2 line i s1.ps }
    | none =>
        let hl := leadingHashes line
        if hl == 1 then { s1 with ps := addNode 1 "section" line i s1.ps }
        else if hl == 2 then { s1 with ps := addNode 2 "subsection" line i s1.ps }
        else
          let mp := jAddContent s1.stage line s1.metadata s1.ps
          { s1 with metadata := mp.1, ps := mp.2 }
  else if decide (2 ≤ s1.stage) then
    if containsSub "Index Terms" line && !(mdContains "index_terms" s1.metadata) then
      { s1 with metadata := mdSet "index_terms" line s1.metadata }
    else
      let mp := jAddContent s1.stage line s1.metadata s1.ps
      { s1 with metadata := mp.1, ps := mp.2 }
  else s1

/-- The journal parse loop. -/
def journalLoop : List (Nat × String) → JState → JState
  | [], s => s
  | il :: rest, s => journalLoop rest (journalLine il.1 il.2 s)

/-- The `JournalPaperStrategy.parse(lines)`. -/
def journalParse (lines : List String) : Metadata × List Node :=
  let fin := journalLoop lines.enum ⟨[], PState.init, 0⟩
  (fin.metadata, fin.ps.finalize)

/-! ### `ConferencePaperStrategy.parse` (`conference_paper.py:236-344`) -/

/-- One iteration of the conference parse loop; the stage-1 `continue`
(`conference_paper.py:302-304`) is flattened as for the journal parser. -/
def conferenceLine (i : Nat) (rawLine : String) (s : JState) : JState :=
  let line := pyStrip rawLine
  let s1 : JState :=
    if s.stage == 0 then
      if pyStartsWith line "# " then
        { s with metadata := mdSet "authors" "" (mdSet "title" (stripTitle line) s.metadata),
                 stage := 1 }
      else s
    else if s.stage == 1 then
      if pyStartsWith line "# " then { s with stage := 2 }
      else { s with metadata := mdAppend "authors" (line ++ "\n") s.metadata }
    else s
  if decide (1 ≤ s1.stage) && pyStartsWith line "#" then
    match matchKeywordLevel conferenceKeywords line with
    | some ld => { s1 with stage := 3, ps := addNode ld.1 ld.2 line i s1.ps }
    | none =>
        let hl := leadingHashes line
        if hl == 1 then
          let title := stripTitle line
          if ["Preliminary", "Preliminaries", "Notation", "Problem"].any
              (fun k => containsSub k title) then
            { s1 with ps := addNode 1 "preliminaries" line i s1.ps }
          else if ["Limitation", "Future Work", "Future"].any (fun k => containsSub k title) then
            { s1 with ps := addNode 1 "limitations" line i s1.ps }
          else if ["Communication", "Implementation", "Analysis"].any
              (fun k => containsSub k title) then
            { s1 with ps := addNode 1 "section" line i s1.ps }
          else { s1 with ps := addNode 1 "section" line i s1.ps }
        else if hl == 2 then { s1 with ps := addNode 2 "subsection" line i s1.ps }
        else if hl == 3 then { s1 with ps := addNode 3 "subsubsection" line i s1.ps }
        else
          let mp := jAddContent s1.stage line s1.metadata s1.ps
          { s1 with metadata := mp.1, ps := mp.2 }
  else if decide (2 ≤ s1.stage) then
    let mp := jAddContent s1.stage line s1.metadata s1.ps
    { s1 with metadata := mp.1, ps := mp.2 }
  else s1

/-- The conference parse loop. -/
def conferenceLoop : List (Nat × String) → JState → JState
  | [], s => s
  | il :: rest, s => conferenceLoop rest (conferenceLine il.1 il.2 s)

/-- The `ConferencePaperStrategy.parse(lines)`. -/
def conferenceParse (lines : List String) : Metadata × List Node :=
  let fin := conferenceLoop lines.enum ⟨[], PState.init, 0⟩
  (fin.metadata, fin.ps.finalize)

/-! ### `ThesisParsingStrategy.parse` (`thesis_strategy.py:185-294`) -/

/-- Loop state of the thesis parser. `lastDescription` is `None` in Python
until stage 4 sets it; the stage-4 uses are always preceded by a heading that
sets it, so the initial value is never read as a metadata key. -/
structure TState where
  metadata : Metadata
  ps : PState
  stage : Nat
  lastPart : Bool
  lastDescription : String

/-- Stage 4 of the thesis parser (`thesis_strategy.py:279-290`): trailing
headings are reclassified into metadata bucket keys, everything is appended to
the current bucket. -/
def thesisStage4 (line : String) (s : TState) : TState :=
  if pyStartsWith line "#" then
    let ld := match matchKeywordLevel thesisKeywords line with
              | some p => p.2
              | none => "raw"
    let md := if !(mdContains ld s.metadata) then mdSet ld "" s.metadata else s.metadata
    { s with metadata := mdAppend ld ("\n" ++ pyStrip line ++ "\n") md, lastDescription := ld }
  else
    let ld := s.lastDescription
    let md := if !(mdContains ld s.metadata) then mdSet ld "" s.metadata else s.metadata
    { s with metadata := mdAppend ld (pyStrip line ++ "\n") md }

/-- Stage 3 of the thesis parser (`thesis_strategy.py:259-276`); the
`last_part` `continue` re-runs the same heading at stage 4. -/
def thesisStage3 (i : Nat) (line : String) (s : TState) : TState :=
  if pyStartsWith line "#" then
    if s.lastPart then thesisStage4 line { s with stage := 4 }
    else
      match matchKeywordLevel thesisKeywords line with
      | some ld =>
          let s' := if ld.2 == "references" then { s with lastPart := true } else s
          { s' with ps := addNode ld.1 ld.2 line i s'.ps }
      | none => { s with ps := addContent line s.ps }
  else
    if !(reSearch refsLineRE line) then { s with ps := addContent line s.ps }
    else { s with lastPart := true, ps := addNode 1 "references" line i s.ps }

/-- One iteration of the thesis parse loop; the stage-2 `continue` re-runs the
heading at stage 3. -/
def thesisLine (i : Nat) (rawLine : String) (s : TState) : TState :=
  let line := pyStrip rawLine
  if s.stage == 0 then
    if pyStartsWith line "#" && reSearch thesisMarkerRE line then { s with stage := 1 } else s
  else if s.stage == 1 then
    let title := stripTitle line
    { s with metadata := mdSet "raw" ("# title: " ++ title ++ "\n\n")
               (mdSet "title" title s.metadata), stage := 2 }
  else if s.stage == 2 then
    if pyStartsWith line "#" then
      thesisStage3 i line { s with stage := 3, metadata := mdAppend "raw" "\n" s.metadata }
    else { s with metadata := mdAppend "raw" (line ++ "\n") s.metadata }
  else if s.stage == 3 then thesisStage3 i line s
  else thesisStage4 line s

/-- The thesis parse loop. -/
def thesisLoop : List (Nat × String) → TState → TState
  | [], s => s
  | il :: rest, s => thesisLoop rest (thesisLine il.1 il.2 s)

/-- The `ThesisParsingStrategy.parse(lines)`. -/
def thesisParse (lines : List String) : Metadata × List Node :=
  let fin := thesisLoop lines.enum ⟨[], PState.init, 0, false, ""⟩
  (fin.metadata, fin.ps.finalize)

/-! ### `MarkdownParser` query / serializer (`markdown_parser.py:156-251`) -/

/-- The keyword filters accepted by `_find_nodes` (each `none` = absent). -/
structure Filters where
  level : Option Int := none
  description : Option String := none
  title : Option String := none
  exactTitle : Option String := none

/-- The no-filter query. -/
def noFilters : Filters := {}

/-- The per-node criteria check of `_find_nodes` (`markdown_parser.py:200-214`):
`level`/`description` exact, `title` substring, `exact_title` exact; filters
combine with AND.  (Nodes always carry all four attributes, so the
`key in node` guards are always true.) -/
def nodeMatches (fl : Filters) (n : Node) : Bool :=
  (match fl.level with | none => true | some v => n.level == v) &&
  (match fl.description with | none => true | some v => n.description == v) &&
  (match fl.title with | none => true | some v => containsSub v n.title) &&
  (match fl.exactTitle with | none => true | some v => v == n.title)

mutual

/-- The `_find_nodes` restricted to a single node: the node itself when it
matches, followed by the matches inside its children. -/
def findNode (fl : Filters) (n : Node) : List Node :=
  (if nodeMatches fl n then [n] else []) ++ findForest fl n.children
termination_by sizeOf n
decreasing_by cases n; simp; try omega

/-- The `MarkdownParser._find_nodes(nodes, **kwargs)` (`markdown_parser.py:185-224`):
for each node, append it when it matches, then always recurse into its
children (the empty-children guard in the source only skips a no-op call). -/
def findForest (fl : Filters) : List Node → List Node
  | [] => []
  | n :: rest => findNode fl n ++ findForest fl rest
termination_by ns => sizeOf ns
decreasing_by all_goals (simp; try omega)

end

mutual

/-- Pre-order listing of a subtree: the node before its descendants. -/
def preorderNode (n : Node) : List Node :=
  n :: preorderForest n.children
termination_by sizeOf n
decreasing_by cases n; simp; try omega

/-- Pre-order listing of a forest (siblings in order). -/
def preorderForest : List Node → List Node
  | [] => []
  | n :: rest => preorderNode n ++ preorderForest rest
termination_by ns => sizeOf ns
decreasing_by all_goals (simp; try omega)

end

/-- The heading-and-content prefix `_node_to_markdown` emits before its
children (`markdown_parser.py:238-245`). -/
def ntmHead (n : Node) (depth : Nat) : String :=
  let headingLevel : Nat := if 0 < n.level then (min 6 (n.level + depth)).toNat else 1 + depth
  let md := (List.replicate headingLevel '#').asString ++ " " ++ n.title ++ "\n\n"
  if pyStrip n.content ≠ "" then md ++ pyStrip n.content ++ "\n\n" else md

mutual

/-- The `MarkdownParser._node_to_markdown(node, depth)` (`markdown_parser.py:226-251`). -/
def nodeToMarkdown (n : Node) (depth : Nat) : String :=
  ntmHead n depth ++ childrenToMarkdown n.children (depth + 1)
termination_by sizeOf n
decreasing_by cases n; simp; try omega

/-- The `for child in node['children']` loop of `_node_to_markdown`. -/
def childrenToMarkdown : List Node → Nat → String
  | [], _ => ""
  | c :: rest, d => nodeToMarkdown c d ++ childrenToMarkdown rest d
termination_by ns _ => sizeOf ns
decreasing_by all_goals (simp; try omega)

end

/-- The `for node in found_nodes: result += ...` loop of
`get_section_content` (depth defaults to 0). -/
def renderAll : List Node → String
  | [] => ""
  | n :: rest => nodeToMarkdown n 0 ++ renderAll rest

/-- The `MarkdownParser.get_section_content(**kwargs)` (`markdown_parser.py:156-183`). -/
def getSectionContent (tree : List Node) (fl : Filters) : String :=
  if tree.isEmpty then ""
  else
    let found := findForest fl tree
    if found.isEmpty then "" else renderAll found

/-! ### `ParsingStrategy.detect` (`base.py:48-111`)

The regex / structural-heuristic evaluations are abstracted at the `re`-module
boundary: a feature set carries, for each pattern, its match predicate on the
document text (`re.search`), its `re.findall` match count, and each structural
hint as a scoring function. -/

/-- A strategy's `get_detection_features()` result, with the pattern matching
abstracted into functions of the document. -/
structure DetectionFeatures where
  /-- The `required_patterns`: (match predicate, weight). -/
  required : List ((String → Bool) × ℚ)
  /-- The `optional_patterns`: (`len(re.findall(...))`, weight). -/
  optional : List ((String → Nat) × ℚ)
  /-- The `structural_hints`: (hint function, weight). -/
  structural : List ((String → List String → ℚ) × ℚ)
  /-- The `exclusion_patterns`: match predicates. -/
  exclusion : List (String → Bool)

/-- The `ParsingStrategy.detect(content, lines)`: exclusion short-circuit, then a
single pass accumulating `(score, max_score)`, then normalisation. -/
def detect (feats : DetectionFeatures) (content : String) (lines : List String) : ℚ :=
  if feats.exclusion.any (fun p => p content) then 0
  else
    let sm1 := feats.required.foldl
      (fun acc pw => (acc.1 + (if pw.1 content then pw.2 else -(pw.2 * (1/2))), acc.2 + pw.2))
      ((0 : ℚ), (0 : ℚ))
    let sm2 := feats.optional.foldl
      (fun acc pw =>
        (acc.1 + (if pw.1 content ≠ 0 then min ((pw.1 content : ℚ) / 3) 1 * pw.2 else 0),
         acc.2 + pw.2))
      sm1
    let sm3 := feats.structural.foldl
      (fun acc fw => (acc.1 + fw.1 content lines * fw.2, acc.2 + fw.2)) sm2
    if 0 < sm3.2 then max 0 (min 1 (sm3.1 / sm3.2)) else 0

/-- Spec-side total weight: `max_score` as the sum of all declared weights. -/
def detectMaxScore (feats : DetectionFeatures) : ℚ :=
  (feats.required.map (·.2)).sum + (feats.optional.map (·.2)).sum +
    (feats.structural.map (·.2)).sum

/-- Spec-side raw score: required hits add their weight and misses subtract
half of it; optional patterns add saturating partial credit; structural hints
add their weighted value. -/
def detectRawScore (feats : DetectionFeatures) (content : String) (lines : List String) : ℚ :=
  (feats.required.map (fun pw => if pw.1 content then pw.2 else -(pw.2 * (1/2)))).sum +
    (feats.optional.map (fun pw =>
      if pw.1 content ≠ 0 then min ((pw.1 content : ℚ) / 3) 1 * pw.2 else 0)).sum +
    (feats.structural.map (fun fw => fw.1 content lines * fw.2)).sum

/-! ### `ConferencePaperStrategy._check_standard_section_flow`
(`conference_paper.py:143-186`) -/

/-- The `expected_sections` patterns, in lowercase because the searches run
under `re.IGNORECASE` (the document text is lowercased before matching). -/
def expectedSections : List RE := [
  reCat [.bol, rlit "# abstract", .eol],
  reCat [.bol, rlit "# introduction", .eol],
  reCat [.bol, rlit "# ", rAlts ["related work", "background"]],
  reCat [.bol, rlit "# ", rAlts ["method", "methodology", "approach"]],
  reCat [.bol, rlit "# ", rAlts ["results", "experiments", "evaluation"]],
  reCat [.bol, rlit "# ", rAlts ["discussion", "analysis"]],
  reCat [.bol, rlit "# ", rAlts ["conclusion", "conclusions"]],
  reCat [.bol, rlit "# references", .eol]]

/-- The `all(positions[i] < positions[i+1] for i in range(len(positions)-1))`. -/
def strictlyInc : List Nat → Bool
  | a :: b :: rest => decide (a < b) && strictlyInc (b :: rest)
  | _ => true

/-- The `_check_standard_section_flow(content, lines)`: fraction of expected
sections found, with a 0.2 bonus (capped at 1) when at least three are found
and their first-match offsets are strictly increasing. -/
def checkStandardSectionFlow (content : String) : ℚ :=
  let low := pyToLower content
  let foundCount := (expectedSections.filter (fun r => (reSearchPos r low).isSome)).length
  let score : ℚ := (foundCount : ℚ) / (expectedSections.length : ℚ)
  let positions := expectedSections.filterMap (fun r => reSearchPos r low)
  if decide (3 ≤ positions.length) && strictlyInc positions then min 1 (score + 1/5) else score

/-- The ordered-flow score exactly as the spec sentence states it: found
fraction plus the capped 0.2 bonus whenever the found start-offsets are
strictly increasing (no minimum-count requirement). -/
def flowScoreClaim (content : String) : ℚ :=
  let low := pyToLower content
  let positions := expectedSections.filterMap (fun r => reSearchPos r low)
  let score : ℚ := (positions.length : ℚ) / (expectedSections.length : ℚ)
  if strictlyInc positions then min 1 (score + 1/5) else score

/-- The amended ordered-flow score: the bonus additionally requires at least
three of the expected patterns to be found. -/
def flowScoreAmended (content : String) : ℚ :=
  let low := pyToLower content
  let positions := expectedSections.filterMap (fun r => reSearchPos r low)
  let score : ℚ := (positions.length : ℚ) / (expectedSections.length : ℚ)
  if decide (3 ≤ positions.length) && strictlyInc positions then min 1 (score + 1/5) else score

/-! ### `StrategyFactory` threshold and auto-detection (`factory.py`) -/

/-- The error kinds the factory can raise (`ValueError` for a bad threshold,
`RuntimeError` for an empty registry). -/
inductive FactoryError where
  | invalidArgument
  | noStrategiesRegistered
deriving DecidableEq

/-- The factory's mutable class state: `CONFIDENCE_THRESHOLD`. -/
structure FactoryState where
  threshold : ℚ
deriving DecidableEq

/-- The `CONFIDENCE_THRESHOLD = 0.3` (`factory.py:17`). -/
def defaultFactoryState : FactoryState := ⟨3 / 10⟩

/-- The `StrategyFactory.set_confidence_threshold(threshold)` (`factory.py:161-175`):
reject values outside `[0, 1]` leaving the state unchanged, otherwise store. -/
def setConfidenceThreshold (st : FactoryState) (t : ℚ) : FactoryState × Except FactoryError Unit :=
  if ¬(0 ≤ t ∧ t ≤ 1) then (st, .error .invalidArgument)
  else ({ st with threshold := t }, .ok ())

/-- Python `max(scores, key=scores.get)`: the first entry with the maximal
score (later entries replace only on a strictly greater score). -/
def bestOf : (String × ℚ) → List (String × ℚ) → (String × ℚ)
  | best, [] => best
  | best, x :: rest => bestOf (if best.2 < x.2 then x else best) rest

/-- The `StrategyFactory.auto_detect` (`factory.py:55-99`) on the per-strategy
scores: fails on an empty registry; otherwise returns the first best-scoring
strategy name together with the `best_score < CONFIDENCE_THRESHOLD`
comparison that drives the low-confidence warning (the winner is returned
either way). -/
def autoDetect (st : FactoryState) : List (String × ℚ) → Except FactoryError (String × Bool)
  | [] => .error .noStrategiesRegistered
  | x :: rest =>
      let b := bestOf x rest
      .ok (b.1, decide (b.2 < st.threshold))

/-! ### Spec-side description of the generic tree-builder step (for claim C3)

The spec describes one line of `_generic_parse` as: pop the stack **while**
its top has `level >= new_level` (each pop closing an open node); then attach
as a child of the new top iff the stack is non-empty and `new_level > 0`,
otherwise append to the root sequence; push.  The following definitions state
that wording directly: a single close-the-top step, iterated exactly
`takeWhile (level ≥ new_level)` many times, followed by the attach rule as a
propositional conditional. -/

/-- Close the single topmost open node: fill its reserved root slot, or
append it to the children of the node below it. -/
def closeTop : PState → PState
  | ⟨tree, []⟩ => ⟨tree, []⟩
  | ⟨tree, f :: rest⟩ =>
      match f.rootIdx with
      | some idx => ⟨tree.set idx (some f.toNode), rest⟩
      | none =>
          match rest with
          | [] => ⟨tree ++ [some f.toNode], []⟩
          | g :: gs => ⟨tree, { g with children := g.children ++ [f.toNode] } :: gs⟩

/-- Absorb a pending closed node into the state (identity for no pending
node); used to relate `popGEAux`'s accumulator to `closeTop` iteration. -/
def pendAbsorb (pend : List Node) : PState → PState
  | ⟨tree, []⟩ => ⟨tree ++ pend.map some, []⟩
  | ⟨tree, f :: rest⟩ => ⟨tree, { f with children := f.children ++ pend } :: rest⟩

/-- The spec's wording of `add_node`: close the `takeWhile (level ≥ lvl)`
prefix of open nodes one at a time, then attach as a child of the new top iff
the stack is non-empty and `lvl > 0`, else append to the root sequence;
push. -/
def specAddNode (lvl : Int) (descr title : String) (i : Nat) (s : PState) : PState :=
  let popped := (s.stack.takeWhile (fun f => decide (lvl ≤ f.level))).length
  let s' := closeTop^[popped] s
  if ¬s'.stack.isEmpty ∧ 0 < lvl then
    ⟨s'.tree, ⟨lvl, descr, stripTitle title, i, "", [], none⟩ :: s'.stack⟩
  else
    ⟨s'.tree ++ [none], ⟨lvl, descr, stripTitle title, i, "", [], some s'.tree.length⟩ :: s'.stack⟩

/-- The spec's wording of one `_generic_parse` line: a classified heading
goes through `specAddNode`; an unclassified heading or non-heading line is
appended (trimmed, plus newline) to the current top's content, and dropped
when the stack is empty. -/
def specGenericLine (cfg : List KeywordConfig) (i : Nat) (rawLine : String) (s : PState) :
    PState :=
  let line := pyStrip rawLine
  if pyStartsWith line "#" then
    match matchKeywordLevel cfg line with
    | some ld => specAddNode ld.1 ld.2 line i s
    | none =>
        match s.stack with
        | [] => s
        | f :: rest => ⟨s.tree, { f with content := f.content ++ pyStrip line ++ "\n" } :: rest⟩
  else
    match s.stack with
    | [] => s
    | f :: rest => ⟨s.tree, { f with content := f.content ++ pyStrip line ++ "\n" } :: rest⟩

/-! ## Theorems -/

/-! ### The classifier (claim C4) -/

/-- The classifier loop is `find?` over the table followed by projection. -/
lemma matchKeywordLevel_eq_find (cfg : List KeywordConfig) (text : String) :
    matchKeywordLevel cfg text =
      (cfg.find? (fun c => reSearch c.keyword text)).map (fun c => (c.level, c.description)) := by
  induction cfg with
  | nil => rfl
  | cons c rest ih =>
      cases h : reSearch c.keyword text with
      | true => simp [matchKeywordLevel, List.find?, h]
      | false => simp [matchKeywordLevel, List.find?, h, ih]

/-- An entry preceded only by non-matching entries decides the result. -/
lemma matchKeywordLevel_append_first (pre : List KeywordConfig) (e : KeywordConfig)
    (suf : List KeywordConfig) (text : String)
    (hpre : ∀ c ∈ pre, reSearch c.keyword text = false)
    (he : reSearch e.keyword text = true) :
    matchKeywordLevel (pre ++ e :: suf) text = some (e.level, e.description) := by
  induction pre with
  | nil => simp [matchKeywordLevel, he]
  | cons c rest ih =>
      have hc : reSearch c.keyword text = false := hpre c (by simp)
      simpa [matchKeywordLevel, hc] using ih (fun d hd => hpre d (by simp [hd]))

/-- Claim C4: for every line and every pattern table, `_match_keyword_level`
returns the level/description of the first-declared entry whose pattern
matches anywhere in the line, `(None, None)` when no entry matches, and in
particular the earlier-declared of two matching entries wins. -/
theorem matchKeywordLevel_first_match :
    (∀ (cfg : List KeywordConfig) (text : String),
        matchKeywordLevel cfg text =
          (cfg.find? (fun c => reSearch c.keyword text)).map (fun c => (c.level, c.description))) ∧
    (∀ (cfg : List KeywordConfig) (text : String),
        (∀ c ∈ cfg, reSearch c.keyword text = false) → matchKeywordLevel cfg text = none) ∧
    (∀ (pre mid post : List KeywordConfig) (e e' : KeywordConfig) (text : String),
        (∀ c ∈ pre, reSearch c.keyword text = false) →
        reSearch e.keyword text = true → reSearch e'.keyword text = true →
        matchKeywordLevel (pre ++ e :: (mid ++ e' :: post)) text =
          some (e.level, e.description)) := by
  refine ⟨matchKeywordLevel_eq_find, ?_, ?_⟩
  · intro cfg text h
    rw [matchKeywordLevel_eq_find]
    have : cfg.find? (fun c => reSearch c.keyword text) = none := by
      rw [List.find?_eq_none]
      intro c hc
      simp [h c hc]
    simp [this]
  · intro pre mid post e e' text hpre he _
    exact matchKeywordLevel_append_first pre e (mid ++ e' :: post) text hpre he

/-- Witness for C4 at a concrete table: both entries match `"Abstract"`, and
the first-declared one is returned. -/
theorem matchKeywordLevel_first_match_witness :
    reSearch (rlit "Abstract") "Abstract" = true ∧
    reSearch (rlit "act") "Abstract" = true ∧
    matchKeywordLevel
        [⟨rlit "Abstract", "abstract", 1⟩, ⟨rlit "act", "x", 2⟩] "Abstract" =
      some (1, "abstract") :=
  ⟨by decide, by decide,
    matchKeywordLevel_first_match.2.2 [] [] [] ⟨rlit "Abstract", "abstract", 1⟩
      ⟨rlit "act", "x", 2⟩ "Abstract" (by simp) (by decide) (by decide)⟩

/-! ### The detection scorer (claim C2) -/

/-- A fold accumulating a pair of running sums is the pair of sums. -/
lemma foldl_pair_sum {α : Type} (f g : α → ℚ) :
    ∀ (l : List α) (a b : ℚ),
      l.foldl (fun acc x => (acc.1 + f x, acc.2 + g x)) (a, b) =
        (a + (l.map f).sum, b + (l.map g).sum) := by
  intro l
  induction l with
  | nil => intro a b; simp
  | cons x rest ih => intro a b; simp [ih, add_assoc]

/-- With no exclusion hit, `detect` is the spec's normalised-clamp formula. -/
lemma detect_eq_formula (feats : DetectionFeatures) (content : String) (lines : List String)
    (hex : feats.exclusion.any (fun p => p content) = false) :
    detect feats content lines =
      if 0 < detectMaxScore feats then
        max 0 (min 1 (detectRawScore feats content lines / detectMaxScore feats))
      else 0 := by
  simp only [detect, hex, Bool.false_eq_true, if_false, foldl_pair_sum]
  simp [detectRawScore, detectMaxScore, add_assoc]

/-- Claim C2: detection confidence is always in `[0,1]`; an exclusion match
returns exactly `0`; otherwise the result is `clamp(score/max_score, 0, 1)`
when `max_score > 0` and `0` when `max_score ≤ 0`. -/
theorem detect_confidence :
    (∀ (feats : DetectionFeatures) (content : String) (lines : List String),
        0 ≤ detect feats content lines ∧ detect feats content lines ≤ 1) ∧
    (∀ (feats : DetectionFeatures) (content : String) (lines : List String),
        feats.exclusion.any (fun p => p content) = true → detect feats content lines = 0) ∧
    (∀ (feats : DetectionFeatures) (content : String) (lines : List String),
        feats.exclusion.any (fun p => p content) = false →
        detect feats content lines =
          if 0 < detectMaxScore feats then
            max 0 (min 1 (detectRawScore feats content lines / detectMaxScore feats))
          else 0) := by
  have hzero : ∀ (feats : DetectionFeatures) (content : String) (lines : List String),
      feats.exclusion.any (fun p => p content) = true → detect feats content lines = 0 := by
    intro feats content lines h
    unfold detect
    rw [h]
    simp
  refine ⟨?_, hzero, detect_eq_formula⟩
  intro feats content lines
  cases hex : feats.exclusion.any (fun p => p content) with
  | true => rw [hzero feats content lines hex]; norm_num
  | false =>
      rw [detect_eq_formula feats content lines hex]
      split
      · constructor
        · exact le_max_left 0 _
        · exact max_le (by norm_num) (min_le_left 1 _)
      · norm_num

/-- Witness for C2: an exclusion hit forces `0`, and without exclusions the
formula applies at a concrete feature set. -/
theorem detect_confidence_witness :
    (DetectionFeatures.mk [] [] [] [fun _ => true]).exclusion.any (fun p => p "x") = true ∧
    detect ⟨[], [], [], [fun _ => true]⟩ "x" [] = 0 ∧
    (DetectionFeatures.mk [(fun _ => true, 2)] [] [] []).exclusion.any (fun p => p "d") = false ∧
    detect ⟨[(fun _ => true, 2)], [], [], []⟩ "d" [] =
      if 0 < detectMaxScore ⟨[(fun _ => true, 2)], [], [], []⟩ then
        max 0 (min 1 (detectRawScore ⟨[(fun _ => true, 2)], [], [], []⟩ "d" [] /
          detectMaxScore ⟨[(fun _ => true, 2)], [], [], []⟩))
      else 0 :=
  ⟨rfl, detect_confidence.2.1 ⟨[], [], [], [fun _ => true]⟩ "x" [] rfl,
    rfl, detect_confidence.2.2 ⟨[(fun _ => true, 2)], [], [], []⟩ "d" [] rfl⟩

/-! ### The factory threshold (claim C9) -/

/-- Claim C9: `set_confidence_threshold(t)` raises `InvalidArgument` iff `t`
is outside `[0,1]`; the stored threshold is unchanged on failure and becomes
`t` on success; and auto-detection after a successful call compares the
winning score against `t` (the winner is returned either way). -/
theorem setConfidenceThreshold_spec :
    (∀ (st : FactoryState) (t : ℚ),
        (setConfidenceThreshold st t).2 = .error .invalidArgument ↔ ¬(0 ≤ t ∧ t ≤ 1)) ∧
    (∀ (st : FactoryState) (t : ℚ),
        (setConfidenceThreshold st t).1.threshold =
          if 0 ≤ t ∧ t ≤ 1 then t else st.threshold) ∧
    (∀ (st : FactoryState) (t : ℚ) (x : String × ℚ) (rest : List (String × ℚ)),
        0 ≤ t → t ≤ 1 →
        autoDetect (setConfidenceThreshold st t).1 (x :: rest) =
          .ok ((bestOf x rest).1, decide ((bestOf x rest).2 < t))) := by
  refine ⟨?_, ?_, ?_⟩
  · intro st t
    by_cases h : 0 ≤ t ∧ t ≤ 1 <;> simp [setConfidenceThreshold, h]
  · intro st t
    by_cases h : 0 ≤ t ∧ t ≤ 1 <;> simp [setConfidenceThreshold, h]
  · intro st t x rest h0 h1
    simp [setConfidenceThreshold, autoDetect, h0, h1]

/-- Witness for C9: after `set_confidence_threshold(0.5)` succeeds, detection
flags a winning score of `0.4` as below the stored `0.5`. -/
theorem setConfidenceThreshold_spec_witness :
    (0 : ℚ) ≤ 1/2 ∧ (1/2 : ℚ) ≤ 1 ∧
    autoDetect (setConfidenceThreshold defaultFactoryState (1/2)).1 [("thesis", 2/5)] =
      .ok ("thesis", true) := by
  refine ⟨by norm_num, by norm_num, ?_⟩
  rw [setConfidenceThreshold_spec.2.2 defaultFactoryState (1/2) ("thesis", 2/5) []
    (by norm_num) (by norm_num)]
  norm_num [bestOf]

/-! ### The ordered-flow heuristic (claims C8) -/

/-- Filtering on `isSome` counts exactly the `filterMap` survivors. -/
lemma length_filter_isSome {α β : Type} (f : α → Option β) (l : List α) :
    (l.filter (fun x => (f x).isSome)).length = (l.filterMap f).length := by
  induction l with
  | nil => rfl
  | cons x rest ih => cases h : f x <;> simp [List.filter_cons, List.filterMap_cons, h, ih]

/-- Counterexample to claim C8 as stated: on a document whose only expected
section is `# Abstract`, the single found offset is (vacuously) strictly
increasing, so the claim's formula awards the 0.2 bonus (13/40), but the code
returns the plain fraction 1/8 because fewer than three patterns were found. -/
theorem flow_bonus_counterexample :
    checkStandardSectionFlow "# Abstract" = 1/8 ∧
    flowScoreClaim "# Abstract" = 13/40 ∧
    (1 : ℚ)/8 ≠ 13/40 := by
  have h1 : (expectedSections.filter
      (fun r => (reSearchPos r (pyToLower "# Abstract")).isSome)).length = 1 := by decide
  have h2 : expectedSections.filterMap
      (fun r => reSearchPos r (pyToLower "# Abstract")) = [0] := by decide
  have h3 : expectedSections.length = 8 := by decide
  refine ⟨?_, ?_, by norm_num⟩
  · simp only [checkStandardSectionFlow, h1, h2, h3]
    norm_num [strictlyInc]
  · simp only [flowScoreClaim, h2, h3]
    norm_num [strictlyInc]

/-- Claim C8, amended: the ordered-flow heuristic returns (found patterns)/N,
plus a 0.2 bonus capped at 1.0 whenever **at least three** patterns are found
and their match start-offsets are strictly increasing in document order. -/
theorem flow_bonus_amended (content : String) :
    checkStandardSectionFlow content = flowScoreAmended content := by
  simp only [checkStandardSectionFlow, flowScoreAmended,
    length_filter_isSome (fun r => reSearchPos r (pyToLower content)) expectedSections]

/-! ### The thesis parser never leaves `SEEK_MARKER` without its marker
(claim C10) -/

/-- A line that is not a marker heading leaves stage 0 untouched. -/
lemma thesisLine_seek (i : Nat) (raw : String) (s : TState) (h0 : s.stage = 0)
    (h : (pyStartsWith (pyStrip raw) "#" && reSearch thesisMarkerRE (pyStrip raw)) = false) :
    thesisLine i raw s = s := by
  simp [thesisLine, h0, h]

/-- The whole loop is inert while no marker heading arrives. -/
lemma thesisLoop_seek :
    ∀ (ils : List (Nat × String)) (s : TState), s.stage = 0 →
      (∀ il ∈ ils, (pyStartsWith (pyStrip il.2) "#" &&
        reSearch thesisMarkerRE (pyStrip il.2)) = false) →
      thesisLoop ils s = s := by
  intro ils
  induction ils with
  | nil => intro s _ _; rfl
  | cons il rest ih =>
      intro s h0 h
      rw [thesisLoop, thesisLine_seek il.1 il.2 s h0 (h il (by simp))]
      exact ih s h0 (fun x hx => h x (by simp [hx]))

/-- Claim C10: if no line, after trimming, both starts with `#` and matches
the doctoral-thesis marker pattern, `ThesisParsingStrategy.parse` returns an
empty metadata map and an empty tree. -/
theorem thesisParse_no_marker (lines : List String)
    (h : ∀ l ∈ lines, (pyStartsWith (pyStrip l) "#" &&
      reSearch thesisMarkerRE (pyStrip l)) = false) :
    thesisParse lines = ([], []) := by
  unfold thesisParse
  rw [thesisLoop_seek lines.enum ⟨[], PState.init, 0, false, ""⟩ rfl ?_]
  · rfl
  · intro il hil
    have : il.2 ∈ lines := by
      rcases il with ⟨k, l⟩
      exact List.snd_mem_of_mem_enum hil
    exact h il.2 this

/-- Witness for C10: a document with content and a chapter heading but no
`博士学位论文` marker parses to nothing. -/
theorem thesisParse_no_marker_witness :
    (∀ l ∈ ["论文", "# 第一章 绪论"], (pyStartsWith (pyStrip l) "#" &&
      reSearch thesisMarkerRE (pyStrip l)) = false) ∧
    thesisParse ["论文", "# 第一章 绪论"] = ([], []) :=
  ⟨by decide, thesisParse_no_marker ["论文", "# 第一章 绪论"] (by decide)⟩

/-! ### `_find_nodes` with no filters is the full pre-order (claim C6) -/

mutual

/-- With no filters every node matches, so the search of one node lists its
whole subtree in pre-order. -/
theorem findNode_noFilters (n : Node) : findNode noFilters n = preorderNode n := by
  rw [findNode, preorderNode, findForest_noFilters n.children]
  simp [nodeMatches, noFilters]
termination_by sizeOf n
decreasing_by cases n; simp; try omega

/-- With no filters the search of a forest lists it in pre-order. -/
theorem findForest_noFilters (ns : List Node) : findForest noFilters ns = preorderForest ns := by
  match ns with
  | [] => simp [findForest, preorderForest]
  | n :: rest =>
      rw [findForest, preorderForest, findNode_noFilters n, findForest_noFilters rest]
termination_by sizeOf ns
decreasing_by all_goals (simp; try omega)

end

/-- Claim C6: `_find_nodes` with no filters returns every node of the tree
(root-level and nested, in pre-order, each node before its descendants), and
for any filters a matching node's children are still recursively searched and
independently re-checked. -/
theorem findNodes_no_filters_preorder :
    (∀ tree : List Node, findForest noFilters tree = preorderForest tree) ∧
    (∀ (tree : List Node) (n : Node),
        n ∈ findForest noFilters tree ↔ n ∈ preorderForest tree) ∧
    (∀ (fl : Filters) (n : Node),
        findNode fl n = (if nodeMatches fl n then [n] else []) ++ findForest fl n.children) := by
  refine ⟨findForest_noFilters, ?_, ?_⟩
  · intro tree n
    rw [findForest_noFilters]
  · intro fl n
    rw [findNode]

/-! ### Structural invariants of the stack-based tree builder (claims C1, C5)

`nodeInv` packages the two facts the attach rule (`if node_stack and
level > 0`) guarantees about every attached child: its level is strictly
above its parent's, and strictly positive. -/

mutual

/-- Every child of `n`, recursively, has level strictly above its parent's
and strictly positive. -/
def nodeInv (n : Node) : Bool := childrenOk n.level n.children
termination_by sizeOf n
decreasing_by cases n; simp; try omega

/-- The children check of `nodeInv` against a parent level `lvl`. -/
def childrenOk (lvl : Int) : List Node → Bool
  | [] => true
  | c :: rest =>
      (decide (lvl < c.level) && decide (0 < c.level) && nodeInv c) && childrenOk lvl rest
termination_by ns => sizeOf ns
decreasing_by all_goals (simp; try omega)

end

/-- The `nodeInv` for every root of a forest. -/
def forestInv : List Node → Bool
  | [] => true
  | n :: rest => nodeInv n && forestInv rest

/-- Frame invariant: the closed children are sound, and a frame attached to a
parent (no reserved root slot) has a strictly positive level. -/
def frameInv (f : Frame) : Bool :=
  childrenOk f.level f.children && (f.rootIdx.isSome || decide (0 < f.level))

/-- The next (lower) frame, when present, has a strictly smaller level. -/
def levelBelow (lvl : Int) : List Frame → Bool
  | [] => true
  | g :: _ => decide (g.level < lvl)

/-- Stack invariant: each frame is sound and levels strictly decrease
downwards. -/
def stackInv : List Frame → Bool
  | [] => true
  | f :: rest => frameInv f && levelBelow f.level rest && stackInv rest

/-- Root-slot invariant: every filled slot holds a sound node. -/
def treeInv : List (Option Node) → Bool
  | [] => true
  | none :: rest => treeInv rest
  | some n :: rest => nodeInv n && treeInv rest

/-- The whole tree-builder state invariant. -/
def stateInv (s : PState) : Bool := treeInv s.tree && stackInv s.stack

lemma nodeInv_toNode (f : Frame) : nodeInv f.toNode = childrenOk f.level f.children := by
  rw [nodeInv]; rfl

lemma childrenOk_cons (lvl : Int) (c : Node) (rest : List Node) :
    childrenOk lvl (c :: rest) = true ↔
      (lvl < c.level ∧ 0 < c.level ∧ nodeInv c = true ∧ childrenOk lvl rest = true) := by
  rw [childrenOk]
  simp [and_assoc]

lemma childrenOk_mem (lvl : Int) (cs : List Node) (h : childrenOk lvl cs = true) :
    ∀ c ∈ cs, lvl < c.level ∧ 0 < c.level ∧ nodeInv c = true := by
  induction cs with
  | nil => simp
  | cons c rest ih =>
      rw [childrenOk_cons] at h
      intro d hd
      rcases List.mem_cons.mp hd with hd | hd
      · subst hd; exact ⟨h.1, h.2.1, h.2.2.1⟩
      · exact ih h.2.2.2 d hd

lemma childrenOk_of_forall (lvl : Int) (ps : List Node)
    (h : ∀ p ∈ ps, lvl < p.level ∧ 0 < p.level ∧ nodeInv p = true) :
    childrenOk lvl ps = true := by
  induction ps with
  | nil => rw [childrenOk]
  | cons p rest ih =>
      rw [childrenOk_cons]
      obtain ⟨h1, h2, h3⟩ := h p (by simp)
      exact ⟨h1, h2, h3, ih (fun q hq => h q (by simp [hq]))⟩

lemma childrenOk_append (lvl : Int) (cs ps : List Node) :
    childrenOk lvl (cs ++ ps) = true ↔
      (childrenOk lvl cs = true ∧
        ∀ p ∈ ps, lvl < p.level ∧ 0 < p.level ∧ nodeInv p = true) := by
  induction cs with
  | nil =>
      simp only [List.nil_append]
      exact ⟨fun h => ⟨by rw [childrenOk], childrenOk_mem lvl ps h⟩,
        fun h => childrenOk_of_forall lvl ps h.2⟩
  | cons c rest ih =>
      simp only [List.cons_append, childrenOk_cons, ih, and_assoc]

lemma childrenOk_forestInv (lvl : Int) (cs : List Node) (h : childrenOk lvl cs = true) :
    forestInv cs = true := by
  induction cs with
  | nil => rfl
  | cons c rest ih =>
      rw [childrenOk] at h
      simp only [Bool.and_eq_true] at h
      rw [forestInv]
      simp [h.1.2, ih h.2]

lemma treeInv_cons (o : Option Node) (rest : List (Option Node)) :
    treeInv (o :: rest) = true ↔
      ((∀ n, o = some n → nodeInv n = true) ∧ treeInv rest = true) := by
  cases o with
  | none => rw [treeInv]; simp
  | some n => rw [treeInv]; simp

lemma treeInv_set (t : List (Option Node)) (n : Node) (hn : nodeInv n = true) :
    ∀ i, treeInv t = true → treeInv (t.set i (some n)) = true := by
  induction t with
  | nil => intro i h; simpa using h
  | cons o rest ih =>
      intro i h
      rw [treeInv_cons] at h
      cases i with
      | zero =>
          rw [List.set_cons_zero, treeInv_cons]
          exact ⟨fun m hm => by rw [(Option.some.injEq .. ▸ hm : n = m)] at hn; exact hn, h.2⟩
      | succ j =>
          rw [List.set_cons_succ, treeInv_cons]
          exact ⟨h.1, ih j h.2⟩

lemma treeInv_append (t : List (Option Node)) (l : List (Option Node))
    (ht : treeInv t = true) (hl : treeInv l = true) : treeInv (t ++ l) = true := by
  induction t with
  | nil => simpa using hl
  | cons o rest ih =>
      rw [treeInv_cons] at ht
      rw [List.cons_append, treeInv_cons]
      exact ⟨ht.1, ih ht.2⟩

lemma treeInv_pend_map (ps : List Node)
    (hp : ∀ p ∈ ps, nodeInv p = true) : treeInv (ps.map some) = true := by
  induction ps with
  | nil => rfl
  | cons p rest ih =>
      rw [List.map_cons, treeInv_cons]
      exact ⟨fun m hm => by
          rw [← (Option.some.injEq .. ▸ hm : p = m)]; exact hp p (by simp),
        ih (fun q hq => hp q (by simp [hq]))⟩

/-- The `popGEAux` preserves the state invariant, and whenever the resulting
stack is non-empty its top has level strictly below the pop threshold. -/
lemma popGEAux_inv (lvl : Int) :
    ∀ (stack : List Frame) (tree : List (Option Node)) (pend : List Node),
      treeInv tree = true → stackInv stack = true →
      (∀ p ∈ pend, nodeInv p = true ∧ 0 < p.level ∧ levelBelow p.level stack = true) →
      treeInv (popGEAux lvl tree pend stack).1 = true ∧
      stackInv (popGEAux lvl tree pend stack).2 = true ∧
      (∀ f fs, (popGEAux lvl tree pend stack).2 = f :: fs → f.level < lvl) := by
  intro stack
  induction stack with
  | nil =>
      intro tree pend ht _ hp
      refine ⟨?_, rfl, by intro f fs h; simp [popGEAux] at h⟩
      rw [popGEAux]
      exact treeInv_append tree _ ht (treeInv_pend_map pend (fun p h => (hp p h).1))
  | cons f rest ih =>
      intro tree pend ht hs hp
      rw [stackInv] at hs
      simp only [Bool.and_eq_true] at hs
      obtain ⟨⟨hf, hbelow⟩, hrest⟩ := hs
      rw [frameInv] at hf
      simp only [Bool.and_eq_true] at hf
      obtain ⟨hch, hroot⟩ := hf
      have hch' : childrenOk f.level (f.children ++ pend) = true := by
        rw [childrenOk_append]
        refine ⟨hch, fun p hpmem => ?_⟩
        obtain ⟨h1, h2, h3⟩ := hp p hpmem
        rw [levelBelow] at h3
        exact ⟨by simpa using h3, h2, h1⟩
      rw [popGEAux]
      simp only
      split
      · -- lvl ≤ f.level: close the top frame
        rcases hridx : f.rootIdx with _ | idx
        · -- rootIdx = none: the closed node becomes the new pending node
          simp only [hridx]
          have h0lvl : 0 < f.level := by
            rw [hridx] at hroot
            simpa using hroot
          refine ih tree [Frame.toNode { f with children := f.children ++ pend }] ht hrest ?_
          intro p hpmem
          simp only [List.mem_singleton] at hpmem
          subst hpmem
          refine ⟨?_, ?_, ?_⟩
          · rw [nodeInv_toNode]; exact hch'
          · exact h0lvl
          · rcases rest with _ | ⟨g, gs⟩
            · rfl
            · rw [stackInv] at hrest
              rw [levelBelow] at hbelow ⊢
              simpa using hbelow
        · -- rootIdx = some idx: the closed node fills its reserved slot
          simp only [hridx]
          refine ih (tree.set idx (some (Frame.toNode { f with children := f.children ++ pend })))
            [] ?_ hrest (by simp)
          refine treeInv_set tree _ ?_ idx ht
          rw [nodeInv_toNode]
          exact hch'
      · -- f.level < lvl: stop popping
        rename_i hstop
        have hflt : f.level < lvl := by
          simp only [not_le] at hstop
          simpa using hstop
        refine ⟨ht, ?_, ?_⟩
        · rw [stackInv, frameInv]
          simp only [Bool.and_eq_true]
          refine ⟨⟨⟨hch', by simpa using hroot⟩, ?_⟩, hrest⟩
          rcases rest with _ | ⟨g, gs⟩
          · rfl
          · rw [levelBelow] at hbelow ⊢
            simpa using hbelow
        · intro f' fs' heq
          replace heq : ({ f with children := f.children ++ pend } : Frame) :: rest =
              f' :: fs' := heq
          rw [List.cons.injEq] at heq
          rw [← heq.1]
          simpa using hflt

/-- The `add_node` preserves the tree-builder invariant. -/
lemma addNode_inv (lvl : Int) (descr title : String) (i : Nat) (s : PState)
    (h : stateInv s = true) : stateInv (addNode lvl descr title i s) = true := by
  rw [stateInv, Bool.and_eq_true] at h
  obtain ⟨ht, hs⟩ := h
  have hpop := popGEAux_inv lvl s.stack s.tree [] ht hs (by simp)
  obtain ⟨ht', hs', hpost⟩ := hpop
  rw [addNode]
  simp only [popGE]
  split
  · -- non-empty stack and positive level: attach as a child (no root slot)
    rename_i hcond
    rw [Bool.and_eq_true, Bool.not_eq_true', List.isEmpty_eq_false_iff_exists_mem] at hcond
    rw [stateInv, Bool.and_eq_true]
    refine ⟨ht', ?_⟩
    rw [stackInv, frameInv]
    simp only [Bool.and_eq_true]
    refine ⟨⟨⟨by rw [childrenOk], by simpa using hcond.2⟩, ?_⟩, hs'⟩
    rcases hstk : (popGEAux lvl s.tree [] s.stack).2 with _ | ⟨g, gs⟩
    · rfl
    · rw [levelBelow]
      simpa using hpost g gs hstk
  · -- empty stack or non-positive level: reserve a root slot
    rw [stateInv, Bool.and_eq_true]
    constructor
    · exact treeInv_append _ [none] ht' (by rw [treeInv, treeInv])
    · rw [stackInv, frameInv]
      simp only [Bool.and_eq_true]
      refine ⟨⟨⟨by rw [childrenOk], by simp⟩, ?_⟩, hs'⟩
      rcases hstk : (popGEAux lvl s.tree [] s.stack).2 with _ | ⟨g, gs⟩
      · rfl
      · rw [levelBelow]
        simpa using hpost g gs hstk

/-- The `add_content` preserves the tree-builder invariant (it only extends the
content string of the top frame). -/
lemma addContent_inv (line : String) (s : PState) (h : stateInv s = true) :
    stateInv (addContent line s) = true := by
  rw [addContent]
  rcases hstk : s.stack with _ | ⟨f, rest⟩
  · exact h
  · rw [stateInv, Bool.and_eq_true] at h
    rw [hstk, stackInv, Bool.and_eq_true] at h
    obtain ⟨ht, ⟨hfb, hrest⟩⟩ := h
    rw [Bool.and_eq_true] at hfb
    rw [stateInv, Bool.and_eq_true]
    refine ⟨ht, ?_⟩
    rw [stackInv]
    simp only [Bool.and_eq_true]
    refine ⟨⟨?_, ?_⟩, hrest⟩
    · rw [frameInv] at hfb ⊢
      simpa using hfb.1
    · rcases rest with _ | ⟨g, gs⟩
      · rfl
      · rw [levelBelow] at hfb ⊢
        simpa using hfb.2

/-- The journal/conference `add_content` closure preserves the invariant. -/
lemma jAddContent_inv (stage : Nat) (line : String) (md : Metadata) (ps : PState)
    (h : stateInv ps = true) : stateInv (jAddContent stage line md ps).2 = true := by
  rw [jAddContent]
  split
  · exact addContent_inv line ps h
  · split <;> exact h

/-- Closing out the whole stack leaves only sound root slots. -/
lemma closeFramesAux_inv :
    ∀ (stack : List Frame) (tree : List (Option Node)) (pend : List Node),
      treeInv tree = true → stackInv stack = true →
      (∀ p ∈ pend, nodeInv p = true ∧ 0 < p.level ∧ levelBelow p.level stack = true) →
      treeInv (closeFramesAux tree pend stack) = true := by
  intro stack
  induction stack with
  | nil =>
      intro tree pend ht _ hp
      rw [closeFramesAux]
      exact treeInv_append tree _ ht (treeInv_pend_map pend (fun p h => (hp p h).1))
  | cons f rest ih =>
      intro tree pend ht hs hp
      rw [stackInv] at hs
      simp only [Bool.and_eq_true] at hs
      obtain ⟨⟨hf, hbelow⟩, hrest⟩ := hs
      rw [frameInv] at hf
      simp only [Bool.and_eq_true] at hf
      obtain ⟨hch, hroot⟩ := hf
      have hch' : childrenOk f.level (f.children ++ pend) = true := by
        rw [childrenOk_append]
        refine ⟨hch, fun p hpmem => ?_⟩
        obtain ⟨h1, h2, h3⟩ := hp p hpmem
        rw [levelBelow] at h3
        exact ⟨by simpa using h3, h2, h1⟩
      rw [closeFramesAux]
      simp only
      rcases hridx : f.rootIdx with _ | idx
      · simp only [hridx]
        have h0lvl : 0 < f.level := by
          rw [hridx] at hroot
          simpa using hroot
        refine ih tree [Frame.toNode { f with children := f.children ++ pend }] ht hrest ?_
        intro p hpmem
        simp only [List.mem_singleton] at hpmem
        subst hpmem
        refine ⟨by rw [nodeInv_toNode]; exact hch', h0lvl, ?_⟩
        rcases rest with _ | ⟨g, gs⟩
        · rfl
        · rw [levelBelow] at hbelow ⊢
          simpa using hbelow
      · simp only [hridx]
        refine ih (tree.set idx (some (Frame.toNode { f with children := f.children ++ pend })))
          [] ?_ hrest (by simp)
        refine treeInv_set tree _ ?_ idx ht
        rw [nodeInv_toNode]
        exact hch'

/-- Surviving slots of an invariant-satisfying slot list form a sound forest. -/
lemma forestInv_reduceOption :
    ∀ (t : List (Option Node)), treeInv t = true → forestInv t.reduceOption = true := by
  intro t
  induction t with
  | nil => intro _; rfl
  | cons o rest ih =>
      intro h
      rw [treeInv_cons] at h
      cases o with
      | none => simpa [List.reduceOption_cons_of_none] using ih h.2
      | some n =>
          rw [List.reduceOption_cons_of_some, forestInv]
          simp [h.1 n rfl, ih h.2]

/-- An invariant-satisfying final state yields a sound forest. -/
lemma finalize_inv (s : PState) (h : stateInv s = true) : forestInv s.finalize = true := by
  rw [stateInv, Bool.and_eq_true] at h
  rw [PState.finalize, closeFrames]
  exact forestInv_reduceOption _ (closeFramesAux_inv s.stack s.tree [] h.1 h.2 (by simp))

/-- The initial tree-builder state satisfies the invariant. -/
lemma stateInv_init : stateInv PState.init = true := by
  rw [stateInv, PState.init]
  simp only
  rw [treeInv, stackInv]
  rfl

lemma genericLine_inv (cfg : List KeywordConfig) (i : Nat) (raw : String) (s : PState)
    (h : stateInv s = true) : stateInv (genericLine cfg i raw s) = true := by
  simp only [genericLine]
  split
  · split
    · exact addNode_inv _ _ _ _ _ h
    · exact addContent_inv _ _ h
  · exact addContent_inv _ _ h

lemma genericLoop_inv (cfg : List KeywordConfig) :
    ∀ (ils : List (Nat × String)) (s : PState), stateInv s = true →
      stateInv (genericLoop cfg ils s) = true := by
  intro ils
  induction ils with
  | nil => intro s h; rw [genericLoop]; exact h
  | cons il rest ih =>
      intro s h
      rw [genericLoop]
      exact ih _ (genericLine_inv cfg il.1 il.2 s h)

lemma genericParse_forestInv (cfg : List KeywordConfig) (lines : List String) :
    forestInv (genericParse cfg lines).2 = true := by
  rw [genericParse]
  exact finalize_inv _ (genericLoop_inv cfg lines.enum PState.init stateInv_init)

lemma journalLine_inv (i : Nat) (raw : String) (s : JState) (h : stateInv s.ps = true) :
    stateInv (journalLine i raw s).ps = true := by
  simp only [journalLine]
  repeat' split
  all_goals
    first
      | exact h
      | exact addNode_inv _ _ _ _ _ h
      | exact addContent_inv _ _ h
      | exact jAddContent_inv _ _ _ _ h

lemma journalLoop_inv :
    ∀ (ils : List (Nat × String)) (s : JState), stateInv s.ps = true →
      stateInv (journalLoop ils s).ps = true := by
  intro ils
  induction ils with
  | nil => intro s h; rw [journalLoop]; exact h
  | cons il rest ih =>
      intro s h
      rw [journalLoop]
      exact ih _ (journalLine_inv il.1 il.2 s h)

lemma journalParse_forestInv (lines : List String) :
    forestInv (journalParse lines).2 = true := by
  rw [journalParse]
  exact finalize_inv _ (journalLoop_inv lines.enum ⟨[], PState.init, 0⟩ stateInv_init)

lemma conferenceLine_inv (i : Nat) (raw : String) (s : JState) (h : stateInv s.ps = true) :
    stateInv (conferenceLine i raw s).ps = true := by
  simp only [conferenceLine]
  repeat' split
  all_goals
    first
      | exact h
      | exact addNode_inv _ _ _ _ _ h
      | exact addContent_inv _ _ h
      | exact jAddContent_inv _ _ _ _ h

lemma conferenceLoop_inv :
    ∀ (ils : List (Nat × String)) (s : JState), stateInv s.ps = true →
      stateInv (conferenceLoop ils s).ps = true := by
  intro ils
  induction ils with
  | nil => intro s h; rw [conferenceLoop]; exact h
  | cons il rest ih =>
      intro s h
      rw [conferenceLoop]
      exact ih _ (conferenceLine_inv il.1 il.2 s h)

lemma conferenceParse_forestInv (lines : List String) :
    forestInv (conferenceParse lines).2 = true := by
  rw [conferenceParse]
  exact finalize_inv _ (conferenceLoop_inv lines.enum ⟨[], PState.init, 0⟩ stateInv_init)

lemma thesisStage4_ps (line : String) (s : TState) : (thesisStage4 line s).ps = s.ps := by
  rw [thesisStage4]
  split <;> rfl

lemma thesisStage3_inv (i : Nat) (line : String) (s : TState) (h : stateInv s.ps = true) :
    stateInv (thesisStage3 i line s).ps = true := by
  simp only [thesisStage3]
  repeat' split
  all_goals
    first
      | exact h
      | (rw [thesisStage4_ps]; exact h)
      | exact addNode_inv _ _ _ _ _ h
      | exact addContent_inv _ _ h

lemma thesisLine_inv (i : Nat) (raw : String) (s : TState) (h : stateInv s.ps = true) :
    stateInv (thesisLine i raw s).ps = true := by
  simp only [thesisLine]
  repeat' split
  all_goals
    first
      | exact h
      | exact thesisStage3_inv _ _ _ h
      | (rw [thesisStage4_ps]; exact h)

lemma thesisLoop_inv :
    ∀ (ils : List (Nat × String)) (s : TState), stateInv s.ps = true →
      stateInv (thesisLoop ils s).ps = true := by
  intro ils
  induction ils with
  | nil => intro s h; rw [thesisLoop]; exact h
  | cons il rest ih =>
      intro s h
      rw [thesisLoop]
      exact ih _ (thesisLine_inv il.1 il.2 s h)

lemma thesisParse_forestInv (lines : List String) :
    forestInv (thesisParse lines).2 = true := by
  rw [thesisParse]
  exact finalize_inv _ (thesisLoop_inv lines.enum ⟨[], PState.init, 0, false, ""⟩ stateInv_init)

/-! ### From the forest invariant to the per-node facts -/

mutual

/-- Every node in the pre-order of a sound node satisfies the children
check. -/
theorem nodeInv_preorder (n : Node) (h : nodeInv n = true) :
    ∀ A ∈ preorderNode n, childrenOk A.level A.children = true := by
  intro A hA
  rw [preorderNode] at hA
  rcases List.mem_cons.mp hA with rfl | hA
  · rw [nodeInv] at h; exact h
  · exact forestInv_preorder n.children
      (childrenOk_forestInv n.level n.children (by rw [nodeInv] at h; exact h)) A hA
termination_by sizeOf n
decreasing_by cases n; simp; try omega

/-- Every node in the pre-order of a sound forest satisfies the children
check. -/
theorem forestInv_preorder (ns : List Node) (h : forestInv ns = true) :
    ∀ A ∈ preorderForest ns, childrenOk A.level A.children = true := by
  match ns with
  | [] =>
      intro A hA
      rw [preorderForest] at hA
      simp at hA
  | n :: rest =>
      intro A hA
      rw [forestInv] at h
      simp only [Bool.and_eq_true] at h
      rw [preorderForest] at hA
      rcases List.mem_append.mp hA with hA | hA
      · exact nodeInv_preorder n h.1 A hA
      · exact forestInv_preorder rest h.2 A hA
termination_by sizeOf ns
decreasing_by all_goals (simp; try omega)

end

/-- Claim C1: in every tree returned by any parsing strategy (the generic
builder with an arbitrary pattern table, and the journal, conference and
thesis staged parsers), every node in a `children` list has level strictly
greater than its parent's level. -/
theorem children_level_gt_parent :
    (∀ (cfg : List KeywordConfig) (lines : List String),
        ∀ A ∈ preorderForest (genericParse cfg lines).2, ∀ c ∈ A.children, A.level < c.level) ∧
    (∀ lines : List String,
        ∀ A ∈ preorderForest (journalParse lines).2, ∀ c ∈ A.children, A.level < c.level) ∧
    (∀ lines : List String,
        ∀ A ∈ preorderForest (conferenceParse lines).2, ∀ c ∈ A.children, A.level < c.level) ∧
    (∀ lines : List String,
        ∀ A ∈ preorderForest (thesisParse lines).2, ∀ c ∈ A.children, A.level < c.level) :=
  ⟨fun cfg lines A hA c hc =>
      (childrenOk_mem A.level A.children
        (forestInv_preorder _ (genericParse_forestInv cfg lines) A hA) c hc).1,
    fun lines A hA c hc =>
      (childrenOk_mem A.level A.children
        (forestInv_preorder _ (journalParse_forestInv lines) A hA) c hc).1,
    fun lines A hA c hc =>
      (childrenOk_mem A.level A.children
        (forestInv_preorder _ (conferenceParse_forestInv lines) A hA) c hc).1,
    fun lines A hA c hc =>
      (childrenOk_mem A.level A.children
        (forestInv_preorder _ (thesisParse_forestInv lines) A hA) c hc).1⟩

/-- Witness for C1 on a concrete generic parse: the attached subsection has
level 2, strictly above its level-1 parent. -/
theorem children_level_gt_parent_witness :
    (⟨1, "a", "A", 0, "", [⟨2, "b", "B", 1, "", []⟩]⟩ : Node) ∈
        preorderForest
          (genericParse [⟨rlit "A", "a", 1⟩, ⟨rlit "B", "b", 2⟩] ["# A", "## B"]).2 ∧
    (⟨2, "b", "B", 1, "", []⟩ : Node) ∈
        (⟨1, "a", "A", 0, "", [⟨2, "b", "B", 1, "", []⟩]⟩ : Node).children ∧
    (1 : Int) < 2 := by
  have htree : (genericParse [⟨rlit "A", "a", 1⟩, ⟨rlit "B", "b", 2⟩] ["# A", "## B"]).2 =
      [⟨1, "a", "A", 0, "", [⟨2, "b", "B", 1, "", []⟩]⟩] := rfl
  have hA : (⟨1, "a", "A", 0, "", [⟨2, "b", "B", 1, "", []⟩]⟩ : Node) ∈
      preorderForest (genericParse [⟨rlit "A", "a", 1⟩, ⟨rlit "B", "b", 2⟩] ["# A", "## B"]).2 := by
    rw [htree]
    simp [preorderForest, preorderNode]
  exact ⟨hA, by simp,
    children_level_gt_parent.1 [⟨rlit "A", "a", 1⟩, ⟨rlit "B", "b", 2⟩] ["# A", "## B"] _ hA
      ⟨2, "b", "B", 1, "", []⟩ (by simp)⟩

/-! ### Metadata-only levels and the tree (claim C5) -/

/-- Counterexample to claim C5 as stated: after a title, a heading matching
the journal table's level `-1` entry (`Index Terms[—-]`) is passed to
`add_node` and, the stack being emptied and `-1 > 0` failing, is appended to
the root sequence of the returned tree. -/
theorem metadata_level_in_tree_counterexample :
    (journalParse ["# T", "# Index Terms—A"]).2.map (fun n => (n.level, n.description)) =
      [(1, "section"), (-1, "index_terms")] := by decide

/-- Claim C5, amended: a node with a metadata-only level (`-1`) is never
attached to any `children` list — every child node in every returned tree has
strictly positive level — though such a node can appear in the root
sequence. -/
theorem no_metadata_level_in_children :
    (∀ (cfg : List KeywordConfig) (lines : List String),
        ∀ A ∈ preorderForest (genericParse cfg lines).2, ∀ c ∈ A.children, 0 < c.level) ∧
    (∀ lines : List String,
        ∀ A ∈ preorderForest (journalParse lines).2, ∀ c ∈ A.children, 0 < c.level) ∧
    (∀ lines : List String,
        ∀ A ∈ preorderForest (conferenceParse lines).2, ∀ c ∈ A.children, 0 < c.level) ∧
    (∀ lines : List String,
        ∀ A ∈ preorderForest (thesisParse lines).2, ∀ c ∈ A.children, 0 < c.level) :=
  ⟨fun cfg lines A hA c hc =>
      (childrenOk_mem A.level A.children
        (forestInv_preorder _ (genericParse_forestInv cfg lines) A hA) c hc).2.1,
    fun lines A hA c hc =>
      (childrenOk_mem A.level A.children
        (forestInv_preorder _ (journalParse_forestInv lines) A hA) c hc).2.1,
    fun lines A hA c hc =>
      (childrenOk_mem A.level A.children
        (forestInv_preorder _ (conferenceParse_forestInv lines) A hA) c hc).2.1,
    fun lines A hA c hc =>
      (childrenOk_mem A.level A.children
        (forestInv_preorder _ (thesisParse_forestInv lines) A hA) c hc).2.1⟩

/-- Witness for the amended C5 on a concrete journal parse: the attached
subsection child has strictly positive level. -/
theorem no_metadata_level_in_children_witness :
    (⟨1, "introduction", "I. INTRODUCTION", 1, "",
        [⟨2, "subsection", "A. Sub", 2, "", []⟩]⟩ : Node) ∈
      preorderForest (journalParse ["# T", "# I. INTRODUCTION", "## A. Sub"]).2 ∧
    (⟨2, "subsection", "A. Sub", 2, "", []⟩ : Node) ∈
      (⟨1, "introduction", "I. INTRODUCTION", 1, "",
        [⟨2, "subsection", "A. Sub", 2, "", []⟩]⟩ : Node).children ∧
    (0 : Int) < 2 := by
  have htree : (journalParse ["# T", "# I. INTRODUCTION", "## A. Sub"]).2 =
      [⟨1, "section", "T", 0, "", []⟩,
        ⟨1, "introduction", "I. INTRODUCTION", 1, "",
          [⟨2, "subsection", "A. Sub", 2, "", []⟩]⟩] := rfl
  have hA : (⟨1, "introduction", "I. INTRODUCTION", 1, "",
      [⟨2, "subsection", "A. Sub", 2, "", []⟩]⟩ : Node) ∈
      preorderForest (journalParse ["# T", "# I. INTRODUCTION", "## A. Sub"]).2 := by
    rw [htree]
    simp [preorderForest, preorderNode]
  exact ⟨hA, by simp,
    no_metadata_level_in_children.2.1 ["# T", "# I. INTRODUCTION", "## A. Sub"] _ hA
      ⟨2, "subsection", "A. Sub", 2, "", []⟩ (by simp)⟩

/-! ### The generic step follows the spec's pop/attach description (claim C3) -/

lemma pendAbsorb_nil (s : PState) : pendAbsorb [] s = s := by
  rcases s with ⟨tree, _ | ⟨f, rest⟩⟩ <;> simp [pendAbsorb]

/-- The `while`-loop of the builder closes exactly the `takeWhile` prefix of
the stack, one `closeTop` at a time. -/
lemma popGEAux_eq_iterate (lvl : Int) :
    ∀ (stack : List Frame) (tree : List (Option Node)) (pend : List Node),
      popGEAux lvl tree pend stack =
        ((closeTop^[(stack.takeWhile (fun f => decide (lvl ≤ f.level))).length]
            (pendAbsorb pend ⟨tree, stack⟩)).tree,
          (closeTop^[(stack.takeWhile (fun f => decide (lvl ≤ f.level))).length]
            (pendAbsorb pend ⟨tree, stack⟩)).stack) := by
  intro stack
  induction stack with
  | nil =>
      intro tree pend
      rw [popGEAux, pendAbsorb]
      simp
  | cons f rest ih =>
      intro tree pend
      rcases f with ⟨flv, fd, ft, fln, fc, fch, fri⟩
      have habs : pendAbsorb pend ⟨tree, (⟨flv, fd, ft, fln, fc, fch, fri⟩ : Frame) :: rest⟩ =
          ⟨tree, (⟨flv, fd, ft, fln, fc, fch ++ pend, fri⟩ : Frame) :: rest⟩ := rfl
      rw [habs]
      by_cases hlf : lvl ≤ flv
      · have htake : (((⟨flv, fd, ft, fln, fc, fch, fri⟩ : Frame) :: rest).takeWhile
            (fun g => decide (lvl ≤ g.level))).length =
            (rest.takeWhile (fun g => decide (lvl ≤ g.level))).length + 1 := by
          simp [List.takeWhile_cons, hlf]
        rw [htake, Function.iterate_succ_apply]
        simp only [popGEAux]
        rw [if_pos (show lvl ≤ (⟨flv, fd, ft, fln, fc, fch ++ pend, fri⟩ : Frame).level from hlf)]
        rcases fri with _ | idx <;> simp only
        · have hclose :
              closeTop ⟨tree, (⟨flv, fd, ft, fln, fc, fch ++ pend, none⟩ : Frame) :: rest⟩ =
                pendAbsorb [Frame.toNode ⟨flv, fd, ft, fln, fc, fch ++ pend, none⟩]
                  ⟨tree, rest⟩ := by
            rcases rest with _ | ⟨g, gs⟩ <;> rfl
          rw [hclose]
          exact ih tree [Frame.toNode ⟨flv, fd, ft, fln, fc, fch ++ pend, none⟩]
        · have hclose :
              closeTop ⟨tree, (⟨flv, fd, ft, fln, fc, fch ++ pend, some idx⟩ : Frame) :: rest⟩ =
                pendAbsorb []
                  ⟨tree.set idx
                    (some (Frame.toNode ⟨flv, fd, ft, fln, fc, fch ++ pend, some idx⟩)), rest⟩ := by
            rw [pendAbsorb_nil]
            rfl
          rw [hclose]
          exact ih (tree.set idx
            (some (Frame.toNode ⟨flv, fd, ft, fln, fc, fch ++ pend, some idx⟩))) []
      · have htake : (((⟨flv, fd, ft, fln, fc, fch, fri⟩ : Frame) :: rest).takeWhile
            (fun g => decide (lvl ≤ g.level))).length = 0 := by
          simp [List.takeWhile_cons, hlf]
        rw [htake]
        simp only [popGEAux]
        rw [if_neg (show ¬lvl ≤ (⟨flv, fd, ft, fln, fc, fch ++ pend, fri⟩ : Frame).level from hlf)]
        simp

/-- The `add_node` equals its spec-side description. -/
lemma addNode_eq_spec (lvl : Int) (descr title : String) (i : Nat) (s : PState) :
    addNode lvl descr title i s = specAddNode lvl descr title i s := by
  rw [addNode, specAddNode, popGE, popGEAux_eq_iterate lvl s.stack s.tree [], pendAbsorb_nil]
  simp only
  by_cases h1 : (closeTop^[(s.stack.takeWhile (fun f => decide (lvl ≤ f.level))).length]
      s).stack.isEmpty <;>
    by_cases h2 : 0 < lvl <;> simp [h1, h2]

/-- Claim C3: each line of the generic tree builder behaves as the spec
describes — a classified heading pops all open nodes of level `≥` the new
level (closing each), attaches as a child of the new top iff the stack is
non-empty and the new level is `> 0` and otherwise starts a new root, and is
pushed; any other line's trimmed text plus a newline goes to the current
top's content, or is dropped when the stack is empty. -/
theorem generic_step_matches_spec (cfg : List KeywordConfig) (i : Nat) (raw : String)
    (s : PState) : genericLine cfg i raw s = specGenericLine cfg i raw s := by
  rw [genericLine, specGenericLine]
  split
  · split
    · exact addNode_eq_spec _ _ _ _ _
    · rw [addContent]
  · rw [addContent]

/-! ### Duplicated rendering of matching descendants (claim C7) -/

mutual

/-- Any pre-order member's search result is a contiguous segment of its
ancestor's search result. -/
theorem findNode_sub_split (fl : Filters) (n A : Node) (hA : A ∈ preorderNode n) :
    ∃ u v, findNode fl n = u ++ (findNode fl A ++ v) := by
  rw [preorderNode] at hA
  rcases List.mem_cons.mp hA with rfl | hA
  · exact ⟨[], [], by simp⟩
  · obtain ⟨u, v, huv⟩ := findForest_sub_split fl n.children A hA
    refine ⟨(if nodeMatches fl n then [n] else []) ++ u, v, ?_⟩
    rw [findNode, huv, List.append_assoc]
termination_by sizeOf n
decreasing_by cases n; simp; try omega

/-- Any pre-order member's search result is a contiguous segment of the
forest's search result. -/
theorem findForest_sub_split (fl : Filters) (ns : List Node) (A : Node)
    (hA : A ∈ preorderForest ns) :
    ∃ u v, findForest fl ns = u ++ (findNode fl A ++ v) := by
  match ns with
  | [] =>
      rw [preorderForest] at hA
      simp at hA
  | n :: rest =>
      rw [preorderForest] at hA
      rcases List.mem_append.mp hA with hA | hA
      · obtain ⟨u, v, huv⟩ := findNode_sub_split fl n A hA
        refine ⟨u, v ++ findForest fl rest, ?_⟩
        rw [findForest, huv]
        simp [List.append_assoc]
      · obtain ⟨u, v, huv⟩ := findForest_sub_split fl rest A hA
        refine ⟨findNode fl n ++ u, v, ?_⟩
        rw [findForest, huv, List.append_assoc]
termination_by sizeOf ns
decreasing_by all_goals (simp; try omega)

end

mutual

/-- The rendering of a node contains, as a substring, the rendering of each
of its pre-order members at the corresponding depth. -/
theorem nodeToMarkdown_sub_split (n A : Node) (hA : A ∈ preorderNode n) :
    ∀ d : Nat, ∃ (k : Nat) (u v : String),
      nodeToMarkdown n d = u ++ (nodeToMarkdown A k ++ v) := by
  intro d
  rw [preorderNode] at hA
  rcases List.mem_cons.mp hA with rfl | hA
  · exact ⟨d, "", "", by simp⟩
  · obtain ⟨k, u, v, huv⟩ := childrenToMarkdown_sub_split n.children A hA (d + 1)
    refine ⟨k, ntmHead n d ++ u, v, ?_⟩
    rw [nodeToMarkdown, huv, String.append_assoc]
termination_by sizeOf n
decreasing_by cases n; simp; try omega

/-- The rendering of a forest contains the rendering of each of its pre-order
members at the corresponding depth. -/
theorem childrenToMarkdown_sub_split (ns : List Node) (A : Node)
    (hA : A ∈ preorderForest ns) :
    ∀ d : Nat, ∃ (k : Nat) (u v : String),
      childrenToMarkdown ns d = u ++ (nodeToMarkdown A k ++ v) := by
  intro d
  match ns with
  | [] =>
      rw [preorderForest] at hA
      simp at hA
  | n :: rest =>
      rw [preorderForest] at hA
      rcases List.mem_append.mp hA with hA | hA
      · obtain ⟨k, u, v, huv⟩ := nodeToMarkdown_sub_split n A hA d
        refine ⟨k, u, v ++ childrenToMarkdown rest d, ?_⟩
        rw [childrenToMarkdown, huv]
        simp [String.append_assoc]
      · obtain ⟨k, u, v, huv⟩ := childrenToMarkdown_sub_split rest A hA d
        refine ⟨k, nodeToMarkdown n d ++ u, v, ?_⟩
        rw [childrenToMarkdown, huv, String.append_assoc]
termination_by sizeOf ns
decreasing_by all_goals (simp; try omega)

end

/-- Rendering distributes over list concatenation. -/
lemma renderAll_append (xs ys : List Node) :
    renderAll (xs ++ ys) = renderAll xs ++ renderAll ys := by
  induction xs with
  | nil => simp [renderAll]
  | cons x rest ih =>
      rw [List.cons_append, renderAll, renderAll, ih, String.append_assoc]

/-- Claim C7: when a filter matches both a node `A` of the tree and a strict
descendant `D` of `A`, the output of `get_section_content` contains the
rendered text of `D` twice — once inline inside the rendering of `A`'s
subtree (at its relative depth `k`), and once again as a separately appended
match rendered at depth 0. -/
theorem duplicate_descendant_content (tree : List Node) (fl : Filters) (A D : Node)
    (hA : A ∈ preorderForest tree) (hmA : nodeMatches fl A = true)
    (hD : D ∈ preorderForest A.children) (hmD : nodeMatches fl D = true) :
    ∃ (k : Nat) (p1 p2 p3 q1 q2 : String),
      getSectionContent tree fl =
        p1 ++ (nodeToMarkdown A 0 ++ (p2 ++ (nodeToMarkdown D 0 ++ p3))) ∧
      nodeToMarkdown A 0 = q1 ++ (nodeToMarkdown D k ++ q2) := by
  obtain ⟨u, v, huv⟩ := findForest_sub_split fl tree A hA
  obtain ⟨u', v', huv'⟩ := findForest_sub_split fl A.children D hD
  have hfA : findNode fl A = A :: findForest fl A.children := by
    rw [findNode, hmA]
    simp
  have hfD : findNode fl D = D :: findForest fl D.children := by
    rw [findNode, hmD]
    simp
  have hfound : findForest fl tree =
      u ++ (A :: (u' ++ (D :: (findForest fl D.children ++ (v' ++ v))))) := by
    rw [huv, hfA, huv', hfD]
    simp [List.append_assoc]
  have htree_ne : tree.isEmpty = false := by
    rcases tree with _ | ⟨t, ts⟩
    · rw [preorderForest] at hA
      simp at hA
    · rfl
  have hfound_ne : (findForest fl tree).isEmpty = false := by
    rw [hfound]
    rcases u with _ | _ <;> rfl
  have hq : ∃ (k : Nat) (q1 q2 : String),
      nodeToMarkdown A 0 = q1 ++ (nodeToMarkdown D k ++ q2) := by
    obtain ⟨k, q1, q2, h⟩ := nodeToMarkdown_sub_split A D
      (by rw [preorderNode]; exact List.mem_cons_of_mem A hD) 0
    exact ⟨k, q1, q2, h⟩
  obtain ⟨k, q1, q2, hqq⟩ := hq
  refine ⟨k, renderAll u, renderAll u', renderAll (findForest fl D.children ++ (v' ++ v)),
    q1, q2, ?_, hqq⟩
  rw [getSectionContent, htree_ne]
  simp only [Bool.false_eq_true, if_false]
  rw [hfound_ne]
  simp only [Bool.false_eq_true, if_false]
  rw [hfound, renderAll_append, renderAll, renderAll_append, renderAll]

/-- Witness for C7: the no-filter query over a chapter with one section
duplicates the section's text. -/
theorem duplicate_descendant_content_witness :
    (⟨1, "chapter", "c", 0, "", [⟨2, "section", "s", 1, "", []⟩]⟩ : Node) ∈
        preorderForest [⟨1, "chapter", "c", 0, "", [⟨2, "section", "s", 1, "", []⟩]⟩] ∧
    nodeMatches noFilters ⟨1, "chapter", "c", 0, "", [⟨2, "section", "s", 1, "", []⟩]⟩ = true ∧
    (⟨2, "section", "s", 1, "", []⟩ : Node) ∈
        preorderForest (⟨1, "chapter", "c", 0, "", [⟨2, "section", "s", 1, "", []⟩]⟩ : Node).children ∧
    nodeMatches noFilters ⟨2, "section", "s", 1, "", []⟩ = true ∧
    (∃ (k : Nat) (p1 p2 p3 q1 q2 : String),
      getSectionContent [⟨1, "chapter", "c", 0, "", [⟨2, "section", "s", 1, "", []⟩]⟩] noFilters =
        p1 ++ (nodeToMarkdown ⟨1, "chapter", "c", 0, "", [⟨2, "section", "s", 1, "", []⟩]⟩ 0 ++
          (p2 ++ (nodeToMarkdown ⟨2, "section", "s", 1, "", []⟩ 0 ++ p3))) ∧
      nodeToMarkdown ⟨1, "chapter", "c", 0, "", [⟨2, "section", "s", 1, "", []⟩]⟩ 0 =
        q1 ++ (nodeToMarkdown ⟨2, "section", "s", 1, "", []⟩ k ++ q2)) := by
  have h1 : (⟨1, "chapter", "c", 0, "", [⟨2, "section", "s", 1, "", []⟩]⟩ : Node) ∈
      preorderForest [⟨1, "chapter", "c", 0, "", [⟨2, "section", "s", 1, "", []⟩]⟩] := by
    simp [preorderForest, preorderNode]
  have h3 : (⟨2, "section", "s", 1, "", []⟩ : Node) ∈
      preorderForest (⟨1, "chapter", "c", 0, "",
        [⟨2, "section", "s", 1, "", []⟩]⟩ : Node).children := by
    simp [preorderForest, preorderNode]
  exact ⟨h1, by decide, h3, by decide,
    duplicate_descendant_content _ noFilters _ _ h1 (by decide) h3 (by decide)⟩

end MarkdownSpliter
